import Mathlib

/-!
Shallow embedding of the core of the `omi_whatsapp` repository:

* `src/services/contact-matcher.ts` — fuzzy contact matching (`normalize`,
  `tokenOverlap`, `scoreVariant`, `findBestInMap`, `findContact`);
* `src/services/whatsapp.ts` — contact directory reconciliation
  (`upsertContact`, `resolveToJid`, `registerLidMapping`,
  `enrichContactsFromMessages`, `persistContacts`, `loadCachedContacts`)
  and the reconnect backoff state machine of `initSession`;
* `src/services/saved-contacts.ts` — user-managed saved contacts
  (`saveContact`, `importContacts`).

Strings are modelled as `List Char`.  JavaScript `Map`s are modelled as
insertion-ordered association lists with unique keys.  Fields that may be
absent (or `undefined`) on a JS object are modelled as `Option`; JS numbers
(used only for match scores) are modelled as `ℚ`, which is exact for every
value the scorer produces.
-/

namespace OmiWa

abbrev Str := List Char

/-- The character class of JavaScript `\s` (whitespace), which is also what
`String.prototype.trim` removes.  ASCII whitespace plus the Unicode space
separators. -/
def jsWs (c : Char) : Bool :=
  c = ' ' || c = '\t' || c = '\n' || c = '\r' || c = '\x0b' || c = '\x0c' ||
  c = '\u00A0' || c = '\uFEFF' || c = '\u1680' ||
  (0x2000 ≤ c.toNat && c.toNat ≤ 0x200A) ||
  c = '\u2028' || c = '\u2029' || c = '\u202F' || c = '\u205F' || c = '\u3000'

/-- JS `toLowerCase` restricted to the character ranges this code base can
meet after NFD stripping: ASCII and the Latin-1 letters. -/
def jsToLower (c : Char) : Char :=
  if 'A' ≤ c && c ≤ 'Z' then Char.ofNat (c.toNat + 32)
  else if 'À' ≤ c && c ≤ 'Þ' && c ≠ '×' then Char.ofNat (c.toNat + 32)
  else c

/-- Base letter of a precomposed Latin-1 lowercase letter (the result of NFD
decomposition with the combining mark dropped).  Characters without a
canonical decomposition map to themselves, which matches real NFD on the
Latin-1 range; for other scripts this is an identity model, which is
indistinguishable after the `[^a-z0-9\s]` filter of `normalize`. -/
def baseLetter (c : Char) : Char :=
  if c = 'à' || c = 'á' || c = 'â' || c = 'ã' || c = 'ä' || c = 'å' then 'a'
  else if c = 'ç' then 'c'
  else if c = 'è' || c = 'é' || c = 'ê' || c = 'ë' then 'e'
  else if c = 'ì' || c = 'í' || c = 'î' || c = 'ï' then 'i'
  else if c = 'ñ' then 'n'
  else if c = 'ò' || c = 'ó' || c = 'ô' || c = 'õ' || c = 'ö' then 'o'
  else if c = 'ù' || c = 'ú' || c = 'û' || c = 'ü' then 'u'
  else if c = 'ý' || c = 'ÿ' then 'y'
  else c

/-- NFD decomposition followed by removal of `\p{Diacritic}` combining marks
(`.normalize('NFD').replace(/\p{Diacritic}/gu, '')`): combining marks are
dropped, precomposed Latin letters decay to their base letter. -/
def nfdStrip (c : Char) : List Char :=
  if 0x300 ≤ c.toNat && c.toNat ≤ 0x36F then [] else [baseLetter c]

/-- Does the `[^a-z0-9\s]` filter of `normalize` keep this character? -/
def keepChar (c : Char) : Bool :=
  ('a' ≤ c && c ≤ 'z') || ('0' ≤ c && c ≤ '9') || jsWs c

/-- JS `String.prototype.trim`. -/
def jsTrim (l : Str) : Str :=
  ((l.dropWhile jsWs).reverse.dropWhile jsWs).reverse

/-- `normalize` of `contact-matcher.ts`: lowercase, strip diacritics, strip
punctuation, trim. -/
def normalize (s : Str) : Str :=
  jsTrim (((s.map jsToLower).flatMap nfdStrip).filter keepChar)

/-- Worker for `splitWs`; `cur` is the token being accumulated (reversed),
`lastWs` records whether the previous character was whitespace (so that a
run of separators produces a single split, as `/\s+/` does). -/
def splitWsGo : List Char → List Char → Bool → List (List Char)
  | [], cur, _ => [cur.reverse]
  | c :: cs, cur, lastWs =>
    if jsWs c then
      if lastWs then splitWsGo cs cur true
      else cur.reverse :: splitWsGo cs [] true
    else splitWsGo cs (c :: cur) false

/-- JS `s.split(/\s+/)`: split on runs of whitespace.  Like the JS original
it yields an empty leading token when `s` starts with whitespace, an empty
trailing token when it ends with whitespace, and `[""]` on the empty
string. -/
def splitWs (l : Str) : List Str := splitWsGo l [] false

/-- `variant.split(/\s+/)[0]`. -/
def firstToken (v : Str) : Str := (splitWs v).getD 0 []

/-- `source` field of a saved contact: `'manual' | 'import'`. -/
inductive ContactSource
  | manual
  | imported
deriving DecidableEq

/-- The contact shape consulted by this code base.  `name` is the
address-book name, `notify` the self-chosen profile ("push") name,
`verifiedName` the business-verified name; `lid` is the opaque linked-id
some events attach to a canonical record.  Absent (or `undefined`) JS
fields are `none`.  `source`/`addedAt`/`updatedAt` are the `SavedContact`
metadata fields; on directory-learned contacts they are absent.  Fields of
the Baileys `Contact` type never consulted by this repository (imgUrl,
status, ...) are not modelled. -/
structure Contact where
  id : Str
  name : Option Str := none
  notify : Option Str := none
  verifiedName : Option Str := none
  lid : Option Str := none
  source : Option ContactSource := none
  addedAt : Option Str := none
  updatedAt : Option Str := none
deriving DecidableEq

/-- JS truthiness of an optional string field: present and non-empty. -/
def isTruthy : Option Str → Bool
  | none => false
  | some s => !(s.isEmpty)

/-- `a || b` on string fields (JS: first operand if truthy, else second). -/
def jsOrElse (a : Option Str) (b : Str) : Str :=
  match a with
  | some s => if s.isEmpty then b else s
  | none => b

/-- `getNameVariants`: normalized name variants of a contact, in field
order, each pushed only when the raw field is truthy. -/
def getNameVariants (c : Contact) : List Str :=
  (match c.name with | some s => if s.isEmpty then [] else [normalize s] | none => [])
  ++ (match c.notify with | some s => if s.isEmpty then [] else [normalize s] | none => [])
  ++ (match c.verifiedName with | some s => if s.isEmpty then [] else [normalize s] | none => [])

/-- `getDisplayName`: `contact.name || contact.notify || contact.verifiedName || contact.id`. -/
def getDisplayName (c : Contact) : Str :=
  jsOrElse c.name (jsOrElse c.notify (jsOrElse c.verifiedName c.id))

def SCORE_EXACT : ℚ := 100
def SCORE_FIRST_NAME : ℚ := 85
def SCORE_TOKEN_OVERLAP : ℚ := 70
def SCORE_STARTS_WITH : ℚ := 60
def SCORE_CONTAINS : ℚ := 40
def SCORE_FUZZY : ℚ := 20

/-- Fuel-indexed Levenshtein edit distance (the `distance` function of the
`fastest-levenshtein` package).  With fuel `≥ a.length + b.length` this is
the standard insert/delete/substitute edit distance; the fuel only makes
the recursion structural.  When the fuel runs out both lists are empty and
`0` is the correct answer. -/
def levFuel : Nat → List Char → List Char → Nat
  | 0, a, b => a.length + b.length
  | _ + 1, [], b => b.length
  | _ + 1, a@(_ :: _), [] => a.length
  | f + 1, x :: xs, y :: ys =>
    if x = y then levFuel f xs ys
    else 1 + min (levFuel f xs (y :: ys)) (min (levFuel f (x :: xs) ys) (levFuel f xs ys))

/-- Levenshtein edit distance between two strings. -/
def levenshtein (a b : Str) : Nat := levFuel (a.length + b.length) a b

/-- `tokenOverlap`: Jaccard similarity on word tokens,
`|intersection| / |union|`, with the guard that it is `0` when both sides
have at most one (distinct) token.  `new Set(xs)` is modelled by `dedup`;
set sizes and the membership-counting loop are order-independent. -/
def tokenOverlap (a b : Str) : ℚ :=
  let setA := (splitWs a).dedup
  let setB := (splitWs b).dedup
  if setA.length ≤ 1 ∧ setB.length ≤ 1 then 0
  else
    let intersection := (setA.filter (fun t => decide (t ∈ setB))).length
    let union := setA.length + setB.length - intersection
    if union = 0 then 0 else (intersection : ℚ) / (union : ℚ)

/-- `scoreVariant`: score one normalized name variant against the
normalized query; the first applicable tier in source order fires.  The
`queryTokens` parameter is carried by the TS function but never read. -/
def scoreVariant (query : Str) (queryTokens : List Str) (variant : Str) : ℚ :=
  if variant = query then SCORE_EXACT
  else
    let firstName := firstToken variant
    if firstName = query then SCORE_FIRST_NAME
    else
      let overlap := tokenOverlap query variant
      if overlap ≥ 1/2 then SCORE_TOKEN_OVERLAP * overlap
      else if query.isPrefixOf variant then SCORE_STARTS_WITH
      else if query <:+: variant then SCORE_CONTAINS
      else
        let maxDist := max 1 (query.length / 4)
        let dist := levenshtein query variant
        if dist ≤ maxDist then SCORE_FUZZY * (1 - (dist : ℚ) / (query.length : ℚ))
        else
          let firstNameDist := levenshtein query firstName
          if firstNameDist ≤ maxDist then
            SCORE_FUZZY * (1 - (firstNameDist : ℚ) / (query.length : ℚ))
          else 0

/-- Identifier suffix of an individual (non-group, non-broadcast) contact. -/
def netSuffix : Str := "@s.whatsapp.net".toList

/-- JS `String.prototype.endsWith`. -/
def endsWith (s p : Str) : Bool := decide (p <:+ s)

/-- Result type of `findContact`. -/
structure MatchedContact where
  jid : Str
  displayName : Str
deriving DecidableEq

/-- The running `bestScore` / `bestMatch` / `bestSource` triple threaded
through `findBestInMap`. -/
structure BestState where
  score : ℚ
  found : Option MatchedContact
  source : Option ContactSource
deriving DecidableEq

/-- Inner loop of `findBestInMap` over the name variants of one contact.
The returned `Bool` is `true` when the loop hit the
`bestScore >= SCORE_EXACT` early return, which aborts the whole scan. -/
def scanVariants (query : Str) (queryTokens : List Str) (jid displayName : Str)
    (contactSource : Option ContactSource) :
    List Str → BestState → BestState × Bool
  | [], st => (st, false)
  | v :: vs, st =>
    let s := scoreVariant query queryTokens v
    let isBetter := s > st.score ∨
      (s = st.score ∧ contactSource = some .manual ∧ st.source = some .imported)
    let st' := if isBetter then ⟨s, some ⟨jid, displayName⟩, contactSource⟩ else st
    if st'.score ≥ SCORE_EXACT then (st', true)
    else scanVariants query queryTokens jid displayName contactSource vs st'

/-- Outer loop of `findBestInMap` over the entries of a contact map.
Non-individual jids (groups, broadcast) are skipped before any scoring. -/
def scanEntries (query : Str) (queryTokens : List Str) :
    List (Str × Contact) → BestState → BestState
  | [], st => st
  | (jid, c) :: rest, st =>
    if endsWith jid netSuffix then
      match scanVariants query queryTokens jid (getDisplayName c) c.source
          (getNameVariants c) st with
      | (st', true) => st'
      | (st', false) => scanEntries query queryTokens rest st'
    else scanEntries query queryTokens rest st

/-- `findBestInMap`: scan a contact map carrying a current-best state. -/
def findBestInMap (contactMap : List (Str × Contact)) (query : Str)
    (queryTokens : List Str) (st : BestState) : BestState :=
  scanEntries query queryTokens contactMap st

/-- `findContact`: normalize the query, give saved contacts a priority
pass (short-circuiting at the first-name tier), and otherwise scan the
learned directory with the saved-pass result as the baseline. -/
def findContact (contacts : List (Str × Contact)) (name : Str)
    (savedContacts : Option (List (Str × Contact))) : Option MatchedContact :=
  let query := normalize name
  if query = [] then none
  else
    let queryTokens := (splitWs query).dedup
    match savedContacts with
    | some saved =>
      if 0 < saved.length then
        let savedRes := findBestInMap saved query queryTokens ⟨0, none, none⟩
        if savedRes.found.isSome ∧ savedRes.score ≥ SCORE_FIRST_NAME then savedRes.found
        else (findBestInMap contacts query queryTokens savedRes).found
      else (findBestInMap contacts query queryTokens ⟨0, none, none⟩).found
    | none => (findBestInMap contacts query queryTokens ⟨0, none, none⟩).found

/-! ### Basic bounds on the scorer -/

lemma filter_mem_length_le (A B : List Str) (hA : A.Nodup) (hB : B.Nodup) :
    (A.filter (fun t => decide (t ∈ B))).length ≤ B.length := by
  have hnd : (A.filter (fun t => decide (t ∈ B))).Nodup := hA.filter _
  have hsub : (A.filter (fun t => decide (t ∈ B))) ⊆ B := by
    intro x hx
    simpa using List.of_mem_filter hx
  exact (hnd.subperm hsub).length_le

lemma tokenOverlap_nonneg (a b : Str) : 0 ≤ tokenOverlap a b := by
  unfold tokenOverlap
  dsimp only
  split
  · exact le_refl 0
  · split
    · exact le_refl 0
    · positivity

lemma tokenOverlap_le_one (a b : Str) : tokenOverlap a b ≤ 1 := by
  unfold tokenOverlap
  dsimp only
  split
  · exact zero_le_one
  · set A := (splitWs a).dedup with hA
    set B := (splitWs b).dedup with hB
    set inter := (A.filter (fun t => decide (t ∈ B))).length with hinter
    split
    · exact zero_le_one
    · next hne =>
      have h1 : inter ≤ A.length := List.length_filter_le _ _
      have h2 : inter ≤ B.length :=
        filter_mem_length_le A B (List.nodup_dedup _) (List.nodup_dedup _)
      have hle : inter ≤ A.length + B.length - inter := by omega
      have hpos : 0 < A.length + B.length - inter := Nat.pos_of_ne_zero hne
      apply div_le_one_of_le₀
      · exact_mod_cast hle
      · exact_mod_cast Nat.le_of_lt hpos

lemma fuzzy_factor_mem (q : Str) (d : Nat) (hd : d ≤ max 1 (q.length / 4)) :
    0 ≤ 1 - (d : ℚ) / (q.length : ℚ) ∧ 1 - (d : ℚ) / (q.length : ℚ) ≤ 1 := by
  rcases Nat.eq_zero_or_pos q.length with h0 | hpos
  · rw [h0]
    norm_num
  · have hdl : d ≤ q.length := by
      have : q.length / 4 ≤ q.length := Nat.div_le_self _ _
      omega
    have hql : (0 : ℚ) < (q.length : ℚ) := by exact_mod_cast hpos
    constructor
    · have : (d : ℚ) / (q.length : ℚ) ≤ 1 := by
        apply div_le_one_of_le₀
        · exact_mod_cast hdl
        · exact le_of_lt hql
      linarith
    · have : 0 ≤ (d : ℚ) / (q.length : ℚ) := by positivity
      linarith

lemma scoreVariant_nonneg (q : Str) (qt : List Str) (v : Str) :
    0 ≤ scoreVariant q qt v := by
  unfold scoreVariant
  dsimp only
  split
  · norm_num [SCORE_EXACT]
  · split
    · norm_num [SCORE_FIRST_NAME]
    · split
      · next hov =>
        have := tokenOverlap_nonneg q v
        norm_num [SCORE_TOKEN_OVERLAP]
        linarith
      · split
        · norm_num [SCORE_STARTS_WITH]
        · split
          · norm_num [SCORE_CONTAINS]
          · split
            · next hd =>
              have := (fuzzy_factor_mem q (levenshtein q v) hd).1
              norm_num [SCORE_FUZZY]
              linarith
            · split
              · next hd =>
                have := (fuzzy_factor_mem q (levenshtein q (firstToken v)) hd).1
                norm_num [SCORE_FUZZY]
                linarith
              · exact le_refl 0

lemma scoreVariant_le_exact (q : Str) (qt : List Str) (v : Str) :
    scoreVariant q qt v ≤ SCORE_EXACT := by
  unfold scoreVariant
  dsimp only
  split
  · exact le_refl _
  · split
    · norm_num [SCORE_FIRST_NAME, SCORE_EXACT]
    · split
      · have := tokenOverlap_le_one q v
        norm_num [SCORE_TOKEN_OVERLAP, SCORE_EXACT]
        linarith
      · split
        · norm_num [SCORE_STARTS_WITH, SCORE_EXACT]
        · split
          · norm_num [SCORE_CONTAINS, SCORE_EXACT]
          · split
            · next hd =>
              have := (fuzzy_factor_mem q (levenshtein q v) hd).2
              norm_num [SCORE_FUZZY, SCORE_EXACT]
              linarith
            · split
              · next hd =>
                have := (fuzzy_factor_mem q (levenshtein q (firstToken v)) hd).2
                norm_num [SCORE_FUZZY, SCORE_EXACT]
                linarith
              · norm_num [SCORE_EXACT]

/-! ### A flat view of the scan

`findBestInMap` is a two-level loop (entries, then name variants).  For
reasoning we flatten it to a single left-to-right scan over scoring
candidates; `scanEntries_eq_scanCands` proves the two agree. -/

/-- One scoring candidate: an individual-jid map entry paired with one of
its normalized name variants. -/
structure Cand where
  jid : Str
  displayName : Str
  csource : Option ContactSource
  variant : Str
deriving DecidableEq

/-- Candidates contributed by one map entry (none unless the key is an
individual `@s.whatsapp.net` jid). -/
def contactCands (jid : Str) (c : Contact) : List Cand :=
  if endsWith jid netSuffix then
    (getNameVariants c).map fun v => ⟨jid, getDisplayName c, c.source, v⟩
  else []

/-- All scoring candidates of a contact map, in scan order. -/
def candsOf (m : List (Str × Contact)) : List Cand :=
  m.flatMap fun p => contactCands p.1 p.2

/-- One step of the scan: the `isBetter` displacement rule of
`findBestInMap` (strictly greater score, or equal score with a manual
candidate displacing an imported incumbent). -/
def stepCand (query : Str) (queryTokens : List Str) (st : BestState) (cd : Cand) :
    BestState :=
  let s := scoreVariant query queryTokens cd.variant
  if s > st.score ∨ (s = st.score ∧ cd.csource = some .manual ∧ st.source = some .imported)
  then ⟨s, some ⟨cd.jid, cd.displayName⟩, cd.csource⟩
  else st

/-- Flat scan over a candidate list, stopping at the `SCORE_EXACT` early
return. -/
def scanCands (query : Str) (queryTokens : List Str) :
    List Cand → BestState → BestState
  | [], st => st
  | cd :: rest, st =>
    let st' := stepCand query queryTokens st cd
    if st'.score ≥ SCORE_EXACT then st'
    else scanCands query queryTokens rest st'

lemma scanVariants_eq_scanCands (q : Str) (qt : List Str) (jid dn : Str)
    (src : Option ContactSource) (vs : List Str) (K : List Cand) (st : BestState) :
    (match scanVariants q qt jid dn src vs st with
     | (st', true) => st'
     | (st', false) => scanCands q qt K st') =
    scanCands q qt ((vs.map fun v => ⟨jid, dn, src, v⟩) ++ K) st := by
  induction vs generalizing st with
  | nil => simp [scanVariants]
  | cons v vs ih =>
    simp only [scanVariants, List.map_cons, List.cons_append, scanCands, stepCand]
    by_cases hb : scoreVariant q qt v > st.score ∨
        (scoreVariant q qt v = st.score ∧ src = some .manual ∧ st.source = some .imported)
    · rw [if_pos hb]
      dsimp only
      by_cases hstop : scoreVariant q qt v ≥ SCORE_EXACT
      · rw [if_pos hstop, if_pos hstop]
      · rw [if_neg hstop, if_neg hstop]
        exact ih _
    · rw [if_neg hb]
      by_cases hstop : st.score ≥ SCORE_EXACT
      · rw [if_pos hstop, if_pos hstop]
      · rw [if_neg hstop, if_neg hstop]
        exact ih _

lemma candsOf_cons (j : Str) (c : Contact) (rest : List (Str × Contact)) :
    candsOf ((j, c) :: rest) = contactCands j c ++ candsOf rest := by
  simp [candsOf]

lemma scanEntries_eq_scanCands (q : Str) (qt : List Str) (m : List (Str × Contact))
    (st : BestState) :
    scanEntries q qt m st = scanCands q qt (candsOf m) st := by
  induction m generalizing st with
  | nil => simp [scanEntries, candsOf, scanCands]
  | cons e rest ih =>
    obtain ⟨jid, c⟩ := e
    rw [candsOf_cons]
    by_cases hnet : endsWith jid netSuffix
    · have key := scanVariants_eq_scanCands q qt jid (getDisplayName c) c.source
        (getNameVariants c) (candsOf rest) st
      rw [contactCands, if_pos hnet]
      simp only [scanEntries]
      rw [if_pos hnet]
      rcases hsv : scanVariants q qt jid (getDisplayName c) c.source (getNameVariants c) st
        with ⟨st', stop⟩
      rw [hsv] at key
      cases stop
      · dsimp only at key ⊢
        rw [ih st']
        exact key
      · dsimp only at key ⊢
        exact key
    · rw [contactCands, if_neg hnet, List.nil_append]
      simp only [scanEntries]
      rw [if_neg hnet]
      exact ih st

/-! ### Invariants of the flat scan -/

lemma stepCand_score (q : Str) (qt : List Str) (st : BestState) (cd : Cand) :
    (stepCand q qt st cd).score = max st.score (scoreVariant q qt cd.variant) := by
  unfold stepCand
  dsimp only
  split
  · next h =>
    rcases h with h | ⟨h, _, _⟩
    · simp [max_eq_right (le_of_lt h)]
    · simp [h]
  · next h =>
    push_neg at h
    exact (max_eq_left h.1).symm

/-- Maximum variant score over a candidate list (`0` for the empty list). -/
def maxScore (q : Str) (qt : List Str) (cds : List Cand) : ℚ :=
  cds.foldr (fun cd acc => max (scoreVariant q qt cd.variant) acc) 0

lemma maxScore_nonneg (q : Str) (qt : List Str) (cds : List Cand) :
    0 ≤ maxScore q qt cds := by
  induction cds with
  | nil => exact le_refl 0
  | cons cd rest ih =>
    simp only [maxScore, List.foldr_cons] at *
    exact le_max_of_le_right ih

lemma maxScore_le_exact (q : Str) (qt : List Str) (cds : List Cand) :
    maxScore q qt cds ≤ SCORE_EXACT := by
  induction cds with
  | nil => norm_num [maxScore, SCORE_EXACT]
  | cons cd rest ih =>
    simp only [maxScore, List.foldr_cons] at *
    exact max_le (scoreVariant_le_exact q qt cd.variant) ih

lemma maxScore_cons (q : Str) (qt : List Str) (cd : Cand) (rest : List Cand) :
    maxScore q qt (cd :: rest) = max (scoreVariant q qt cd.variant) (maxScore q qt rest) :=
  rfl

lemma scanCands_score (q : Str) (qt : List Str) (cds : List Cand) (st : BestState)
    (h0 : 0 ≤ st.score) :
    (scanCands q qt cds st).score = max st.score (maxScore q qt cds) := by
  induction cds generalizing st with
  | nil =>
    simp only [scanCands, maxScore, List.foldr_nil]
    exact (max_eq_left h0).symm
  | cons cd rest ih =>
    simp only [scanCands]
    rw [maxScore_cons]
    have hstep := stepCand_score q qt st cd
    have hassoc : max st.score (max (scoreVariant q qt cd.variant) (maxScore q qt rest)) =
        max (max st.score (scoreVariant q qt cd.variant)) (maxScore q qt rest) :=
      (max_assoc _ _ _).symm
    split
    · next hstop =>
      rw [hstep, hassoc, ← hstep]
      have hrest : maxScore q qt rest ≤ (stepCand q qt st cd).score :=
        le_trans (maxScore_le_exact q qt rest) hstop
      exact (max_eq_left hrest).symm
    · next hstop =>
      have h0' : 0 ≤ (stepCand q qt st cd).score := by
        rw [hstep]
        exact le_max_of_le_left h0
      rw [ih _ h0', hstep, hassoc]

lemma scanCands_score_mono (q : Str) (qt : List Str) (cds : List Cand) (st : BestState) :
    st.score ≤ (scanCands q qt cds st).score := by
  induction cds generalizing st with
  | nil => exact le_refl _
  | cons cd rest ih =>
    simp only [scanCands]
    have hstep : st.score ≤ (stepCand q qt st cd).score := by
      rw [stepCand_score]
      exact le_max_left _ _
    split
    · exact hstep
    · exact le_trans hstep (ih _)

/-- If the scan changed the running state at all, the change was a
displacement: either some candidate strictly beat the incoming score, or a
manual-sourced candidate tied an imported-sourced incumbent. -/
lemma scanCands_ne (q : Str) (qt : List Str) (cds : List Cand) (st : BestState)
    (hne : scanCands q qt cds st ≠ st) :
    st.score < (scanCands q qt cds st).score ∨
    ((scanCands q qt cds st).score = st.score ∧ st.source = some .imported ∧
      (scanCands q qt cds st).source = some .manual) := by
  induction cds generalizing st with
  | nil => exact absurd rfl hne
  | cons cd rest ih =>
    simp only [scanCands] at hne ⊢
    by_cases hb : scoreVariant q qt cd.variant > st.score ∨
        (scoreVariant q qt cd.variant = st.score ∧ cd.csource = some .manual ∧
          st.source = some .imported)
    · have hstep : stepCand q qt st cd =
          ⟨scoreVariant q qt cd.variant, some ⟨cd.jid, cd.displayName⟩, cd.csource⟩ := by
        unfold stepCand
        dsimp only
        rw [if_pos hb]
      rw [hstep] at hne ⊢
      rcases hb with hgt | ⟨heq, hman, himp⟩
      · -- strict displacement: every later state scores at least as much
        split
        · exact Or.inl hgt
        · next hstop =>
          by_cases hrest : scanCands q qt rest
              ⟨scoreVariant q qt cd.variant, some ⟨cd.jid, cd.displayName⟩, cd.csource⟩ =
              ⟨scoreVariant q qt cd.variant, some ⟨cd.jid, cd.displayName⟩, cd.csource⟩
          · rw [hrest]
            exact Or.inl hgt
          · rcases ih _ hrest with h | ⟨hsc, _, _⟩
            · exact Or.inl (lt_trans hgt h)
            · rw [hsc]
              exact Or.inl hgt
      · -- tie displacement: incumbent was imported, candidate manual
        split
        · exact Or.inr ⟨heq, himp, hman⟩
        · next hstop =>
          by_cases hrest : scanCands q qt rest
              ⟨scoreVariant q qt cd.variant, some ⟨cd.jid, cd.displayName⟩, cd.csource⟩ =
              ⟨scoreVariant q qt cd.variant, some ⟨cd.jid, cd.displayName⟩, cd.csource⟩
          · rw [hrest]
            exact Or.inr ⟨heq, himp, hman⟩
          · rcases ih _ hrest with h | ⟨hsc, hsrc, _⟩
            · exact Or.inl (lt_of_le_of_lt heq.symm.le h)
            · rw [hman] at hsrc
              exact absurd hsrc (by simp)
    · have hstep : stepCand q qt st cd = st := by
        unfold stepCand
        dsimp only
        rw [if_neg hb]
      rw [hstep] at hne ⊢
      by_cases hstop : st.score ≥ SCORE_EXACT
      · rw [if_pos hstop] at hne
        exact absurd rfl hne
      · rw [if_neg hstop] at hne ⊢
        exact ih _ hne

/-- Provenance: the scan either leaves the state untouched or ends on the
record built from one of the scanned candidates. -/
lemma scanCands_cases (q : Str) (qt : List Str) (cds : List Cand) (st : BestState) :
    scanCands q qt cds st = st ∨
    ∃ cd ∈ cds, scanCands q qt cds st =
      ⟨scoreVariant q qt cd.variant, some ⟨cd.jid, cd.displayName⟩, cd.csource⟩ := by
  induction cds generalizing st with
  | nil => exact Or.inl rfl
  | cons cd rest ih =>
    simp only [scanCands]
    by_cases hb : scoreVariant q qt cd.variant > st.score ∨
        (scoreVariant q qt cd.variant = st.score ∧ cd.csource = some .manual ∧
          st.source = some .imported)
    · have hstep : stepCand q qt st cd =
          ⟨scoreVariant q qt cd.variant, some ⟨cd.jid, cd.displayName⟩, cd.csource⟩ := by
        unfold stepCand
        dsimp only
        rw [if_pos hb]
      rw [hstep]
      split
      · exact Or.inr ⟨cd, List.mem_cons_self _ _, rfl⟩
      · rcases ih (⟨scoreVariant q qt cd.variant, some ⟨cd.jid, cd.displayName⟩,
            cd.csource⟩ : BestState) with h | ⟨cd', hcd', h⟩
        · exact Or.inr ⟨cd, List.mem_cons_self _ _, h⟩
        · exact Or.inr ⟨cd', List.mem_cons_of_mem _ hcd', h⟩
    · have hstep : stepCand q qt st cd = st := by
        unfold stepCand
        dsimp only
        rw [if_neg hb]
      rw [hstep]
      split
      · exact Or.inl rfl
      · rcases ih st with h | ⟨cd', hcd', h⟩
        · exact Or.inl h
        · exact Or.inr ⟨cd', List.mem_cons_of_mem _ hcd', h⟩

lemma candsOf_mem_net {cd : Cand} {m : List (Str × Contact)} (h : cd ∈ candsOf m) :
    endsWith cd.jid netSuffix = true := by
  simp only [candsOf, List.mem_flatMap] at h
  obtain ⟨p, hp, hcd⟩ := h
  unfold contactCands at hcd
  by_cases hnet : endsWith p.1 netSuffix
  · rw [if_pos hnet] at hcd
    simp only [List.mem_map] at hcd
    obtain ⟨v, _, rfl⟩ := hcd
    exact hnet
  · rw [if_neg hnet] at hcd
    simp at hcd

lemma candsOf_mem_entry {cd : Cand} {m : List (Str × Contact)} (h : cd ∈ candsOf m) :
    ∃ p ∈ m, cd.jid = p.1 ∧ cd.csource = p.2.source ∧
      cd.displayName = getDisplayName p.2 ∧ cd.variant ∈ getNameVariants p.2 := by
  simp only [candsOf, List.mem_flatMap] at h
  obtain ⟨p, hp, hcd⟩ := h
  unfold contactCands at hcd
  by_cases hnet : endsWith p.1 netSuffix
  · rw [if_pos hnet] at hcd
    simp only [List.mem_map] at hcd
    obtain ⟨v, hv, rfl⟩ := hcd
    exact ⟨p, hp, rfl, rfl, rfl, hv⟩
  · rw [if_neg hnet] at hcd
    simp at hcd

lemma mem_candsOf {m : List (Str × Contact)} {j : Str} {c : Contact}
    (hm : (j, c) ∈ m) (hnet : endsWith j netSuffix = true) {v : Str}
    (hv : v ∈ getNameVariants c) :
    (⟨j, getDisplayName c, c.source, v⟩ : Cand) ∈ candsOf m := by
  simp only [candsOf, List.mem_flatMap]
  refine ⟨(j, c), hm, ?_⟩
  unfold contactCands
  rw [if_pos hnet]
  simp only [List.mem_map]
  exact ⟨v, hv, rfl⟩

/-- If the scan ends below the exact tier on an imported-sourced winner,
then no manual-sourced candidate anywhere in the scanned list ties the
winning score (a manual candidate scoring that much would have displaced
or retained the lead). -/
lemma scanCands_no_manual_tie (q : Str) (qt : List Str) (cds : List Cand) (st : BestState) :
    (scanCands q qt cds st).score < SCORE_EXACT →
    (scanCands q qt cds st).source = some .imported →
    ∀ cd ∈ cds, cd.csource = some .manual →
      scoreVariant q qt cd.variant ≠ (scanCands q qt cds st).score := by
  induction cds generalizing st with
  | nil =>
    intro _ _ cd h
    simp at h
  | cons cd rest ih =>
    intro hlt hsrc cd' hcd' hman
    simp only [scanCands] at hlt hsrc ⊢
    by_cases hb : scoreVariant q qt cd.variant > st.score ∨
        (scoreVariant q qt cd.variant = st.score ∧ cd.csource = some .manual ∧
          st.source = some .imported)
    · have hstep : stepCand q qt st cd =
          ⟨scoreVariant q qt cd.variant, some ⟨cd.jid, cd.displayName⟩, cd.csource⟩ := by
        unfold stepCand
        dsimp only
        rw [if_pos hb]
      rw [hstep] at hlt hsrc ⊢
      by_cases hstop : scoreVariant q qt cd.variant ≥ SCORE_EXACT
      · rw [if_pos hstop] at hlt
        exact absurd hstop (not_le.mpr hlt)
      · rw [if_neg hstop] at hlt hsrc ⊢
        rcases List.mem_cons.mp hcd' with rfl | hmem
        · -- the manual head became the incumbent; an imported final winner
          -- must then have scored strictly more
          intro heq
          have hneS : scanCands q qt rest
              ⟨scoreVariant q qt cd'.variant, some ⟨cd'.jid, cd'.displayName⟩, cd'.csource⟩ ≠
              ⟨scoreVariant q qt cd'.variant, some ⟨cd'.jid, cd'.displayName⟩, cd'.csource⟩ := by
            intro hE
            rw [hE] at hsrc
            simp [hman] at hsrc
          rcases scanCands_ne q qt rest _ hneS with h | ⟨_, hSimp, _⟩
          · exact absurd heq (ne_of_lt h)
          · simp [hman] at hSimp
        · exact ih _ hlt hsrc cd' hmem hman
    · have hstep : stepCand q qt st cd = st := by
        unfold stepCand
        dsimp only
        rw [if_neg hb]
      rw [hstep] at hlt hsrc ⊢
      by_cases hstop : st.score ≥ SCORE_EXACT
      · rw [if_pos hstop] at hlt
        exact absurd hstop (not_le.mpr hlt)
      · rw [if_neg hstop] at hlt hsrc ⊢
        rcases List.mem_cons.mp hcd' with rfl | hmem
        · -- the manual head did not displace: it scored at most the
          -- incumbent, and cannot tie an imported final winner
          intro heq
          push_neg at hb
          obtain ⟨hle, htie⟩ := hb
          have hmono := scanCands_score_mono q qt rest st
          rcases lt_or_eq_of_le hle with hlt2 | heq2
          · exact absurd heq (ne_of_lt (lt_of_lt_of_le hlt2 hmono))
          · have hnimp : st.source ≠ some .imported := fun hImp =>
              (htie heq2 hman) hImp
            have hne : scanCands q qt rest st ≠ st := by
              intro hE
              rw [hE] at hsrc
              exact hnimp hsrc
            rcases scanCands_ne q qt rest st hne with h | ⟨_, hstimp, _⟩
            · rw [heq2] at heq
              exact absurd heq (ne_of_lt h)
            · exact hnimp hstimp
        · exact ih _ hlt hsrc cd' hmem hman

lemma findBestInMap_eq_scan (m : List (Str × Contact)) (q : Str) (qt : List Str)
    (st : BestState) :
    findBestInMap m q qt st = scanCands q qt (candsOf m) st :=
  scanEntries_eq_scanCands q qt m st

/-- A jid ending in `@s.whatsapp.net` is neither a group jid nor the
broadcast-status pseudo-contact. -/
lemma net_not_group {s : Str} (h : endsWith s netSuffix = true) :
    endsWith s "@g.us".toList = false ∧ s ≠ "status@broadcast".toList := by
  constructor
  · by_contra hg
    have hg' : endsWith s "@g.us".toList = true := by
      cases hEW : endsWith s "@g.us".toList
      · exact absurd hEW hg
      · rfl
    have h1 : netSuffix <:+ s := of_decide_eq_true h
    have h2 : "@g.us".toList <:+ s := of_decide_eq_true hg'
    rcases List.suffix_or_suffix_of_suffix h2 h1 with hs | hs
    · exact absurd hs (by decide)
    · exact absurd hs (by decide)
  · intro hEq
    rw [hEq] at h
    exact absurd h (by decide)

/-- Any match produced by a scan whose baseline match (if any) carries an
individual jid itself carries an individual jid. -/
lemma scanCands_found_net (q : Str) (qt : List Str) (m : List (Str × Contact))
    (st : BestState)
    (hbase : ∀ mt, st.found = some mt → endsWith mt.jid netSuffix = true) :
    ∀ mt, (scanCands q qt (candsOf m) st).found = some mt →
      endsWith mt.jid netSuffix = true := by
  intro mt h
  rcases scanCands_cases q qt (candsOf m) st with hE | ⟨cd, hcd, hE⟩
  · rw [hE] at h
    exact hbase mt h
  · rw [hE] at h
    have : mt = ⟨cd.jid, cd.displayName⟩ := by
      simpa using h.symm
    rw [this]
    exact candsOf_mem_net hcd

/-- C8: for every query and every pair of directories, any match returned
by `findContact` has an individual-contact identifier
(`...@s.whatsapp.net`): group-conversation identifiers (`...@g.us`) and
the broadcast-status pseudo-contact (`status@broadcast`) are never
returned as matches, regardless of how well their names score. -/
theorem findContact_individual_only (contacts : List (Str × Contact)) (name : Str)
    (savedContacts : Option (List (Str × Contact))) (mt : MatchedContact)
    (h : findContact contacts name savedContacts = some mt) :
    endsWith mt.jid netSuffix = true ∧ endsWith mt.jid "@g.us".toList = false ∧
      mt.jid ≠ "status@broadcast".toList := by
  have hnet : endsWith mt.jid netSuffix = true := by
    simp only [findContact] at h
    by_cases hq : normalize name = []
    · rw [if_pos hq] at h
      exact absurd h (by simp)
    · rw [if_neg hq] at h
      cases savedContacts with
      | none =>
        dsimp only at h
        rw [findBestInMap_eq_scan] at h
        refine scanCands_found_net _ _ contacts ⟨0, none, none⟩ ?_ mt h
        intro x hx
        simp at hx
      | some saved =>
        dsimp only at h
        by_cases hlen : 0 < saved.length
        · rw [if_pos hlen] at h
          have hSRnet : ∀ mt', (findBestInMap saved (normalize name)
              ((splitWs (normalize name)).dedup) ⟨0, none, none⟩).found = some mt' →
              endsWith mt'.jid netSuffix = true := by
            intro mt' h'
            rw [findBestInMap_eq_scan] at h'
            refine scanCands_found_net _ _ saved ⟨0, none, none⟩ ?_ mt' h'
            intro x hx
            simp at hx
          by_cases hsc : (findBestInMap saved (normalize name)
              ((splitWs (normalize name)).dedup) ⟨0, none, none⟩).found.isSome ∧
              (findBestInMap saved (normalize name)
                ((splitWs (normalize name)).dedup) ⟨0, none, none⟩).score ≥ SCORE_FIRST_NAME
          · rw [if_pos hsc] at h
            exact hSRnet mt h
          · rw [if_neg hsc] at h
            rw [findBestInMap_eq_scan] at h
            exact scanCands_found_net _ _ contacts _ hSRnet mt h
        · rw [if_neg hlen] at h
          rw [findBestInMap_eq_scan] at h
          refine scanCands_found_net _ _ contacts ⟨0, none, none⟩ ?_ mt h
          intro x hx
          simp at hx
  exact ⟨hnet, (net_not_group hnet).1, (net_not_group hnet).2⟩

theorem findContact_individual_only_witness :
    endsWith "7@s.whatsapp.net".toList netSuffix = true ∧
      endsWith "7@s.whatsapp.net".toList "@g.us".toList = false ∧
      "7@s.whatsapp.net".toList ≠ "status@broadcast".toList :=
  findContact_individual_only
    [("7@s.whatsapp.net".toList,
      { id := "7@s.whatsapp.net".toList, name := some "bob".toList })]
    "bob".toList none ⟨"7@s.whatsapp.net".toList, "bob".toList⟩
    (by norm_num +decide [findContact, findBestInMap, scanEntries, scanVariants,
      scoreVariant, tokenOverlap, firstToken, splitWs, splitWsGo, normalize, jsTrim,
      jsWs, jsToLower, nfdStrip, baseLetter, keepChar, getNameVariants, getDisplayName,
      jsOrElse, levenshtein, levFuel, endsWith, netSuffix, SCORE_EXACT,
      SCORE_FIRST_NAME, SCORE_TOKEN_OVERLAP, SCORE_STARTS_WITH, SCORE_CONTAINS,
      SCORE_FUZZY])

/-- C10: for every input name whose normalization is empty (a name with no
ASCII letters or digits, e.g. only punctuation, whitespace, emoji or
non-Latin characters), `findContact` returns `null` regardless of the
contents of the saved and learned directories. -/
theorem findContact_empty_query (contacts : List (Str × Contact)) (name : Str)
    (savedContacts : Option (List (Str × Contact)))
    (h : normalize name = []) :
    findContact contacts name savedContacts = none := by
  simp only [findContact]
  rw [if_pos h]

theorem findContact_empty_query_witness :
    normalize "!!! ...".toList = [] ∧
      findContact
        [("7@s.whatsapp.net".toList,
          { id := "7@s.whatsapp.net".toList, name := some "bob".toList })]
        "!!! ...".toList
        (some [("8@s.whatsapp.net".toList,
          { id := "8@s.whatsapp.net".toList, name := some "ann".toList,
            source := some .manual, addedAt := some "t".toList })]) = none :=
  ⟨by decide, findContact_empty_query _ _ _ (by decide)⟩

lemma nodup_keys_eq {m : List (Str × Contact)} (h : (m.map Prod.fst).Nodup)
    {k : Str} {v v' : Contact} (h1 : (k, v) ∈ m) (h2 : (k, v') ∈ m) : v = v' := by
  induction m with
  | nil => simp at h1
  | cons a rest ih =>
    simp only [List.map_cons, List.nodup_cons] at h
    rcases List.mem_cons.mp h1 with rfl | hm1
    · rcases List.mem_cons.mp h2 with h2' | hm2
      · exact (congrArg Prod.snd h2'.symm : _)
      · exact absurd (List.mem_map.mpr ⟨_, hm2, rfl⟩) h.1
    · rcases List.mem_cons.mp h2 with rfl | hm2
      · exact absurd (List.mem_map.mpr ⟨_, hm1, rfl⟩) h.1
      · exact ih h.2 hm1 hm2

/-- The learned directory used by the C9 counterexample: an imported-sourced
and a manual-sourced contact that both match the query exactly, the
imported one first in scan order. -/
def tieCexMap : List (Str × Contact) :=
  [("1@s.whatsapp.net".toList,
    { id := "1@s.whatsapp.net".toList, name := some "ann".toList,
      source := some .imported, addedAt := some "t0".toList }),
   ("2@s.whatsapp.net".toList,
    { id := "2@s.whatsapp.net".toList, name := some "ann".toList,
      source := some .manual, addedAt := some "t1".toList })]

/-- C9 counterexample: in a learned-directory scan both candidates achieve
the identical best score 100 (the exact tier); the scan short-circuits on
the first exact match and `findContact` returns the imported-sourced
candidate, not the manual-sourced one, refuting the claim as stated. -/
theorem findContact_tie_break_manual_cex :
    scoreVariant (normalize "ann".toList) ((splitWs (normalize "ann".toList)).dedup)
        (normalize "ann".toList) = 100 ∧
      (tieCexMap.map fun p => p.2.source) = [some .imported, some .manual] ∧
      (tieCexMap.map fun p => getNameVariants p.2) =
        [[normalize "ann".toList], [normalize "ann".toList]] ∧
      findContact tieCexMap "ann".toList none =
        some ⟨"1@s.whatsapp.net".toList, "ann".toList⟩ := by
  refine ⟨?_, by decide, by decide, ?_⟩
  · norm_num +decide [scoreVariant, SCORE_EXACT]
  · norm_num +decide [findContact, findBestInMap, scanEntries, scanVariants,
      scoreVariant, tokenOverlap, firstToken, splitWs, splitWsGo, normalize, jsTrim,
      jsWs, jsToLower, nfdStrip, baseLetter, keepChar, getNameVariants, getDisplayName,
      jsOrElse, levenshtein, levFuel, endsWith, netSuffix, tieCexMap, SCORE_EXACT,
      SCORE_FIRST_NAME, SCORE_TOKEN_OVERLAP, SCORE_STARTS_WITH, SCORE_CONTAINS,
      SCORE_FUZZY]

/-- C9 (amended): in every learned-directory scan whose best score is
strictly below the exact tier (100), `findContact` prefers a
manual-sourced candidate over an imported-sourced one on equal scores:
whenever the returned match is an imported-sourced entry, no
manual-sourced candidate in the directory ties the winning score. -/
theorem findContact_tie_break_manual (m : List (Str × Contact)) (name : Str)
    (mt : MatchedContact) (j₂ : Str) (c₂ : Contact)
    (hnodup : (m.map Prod.fst).Nodup)
    (hres : findContact m name none = some mt)
    (hscore : (findBestInMap m (normalize name) ((splitWs (normalize name)).dedup)
        ⟨0, none, none⟩).score < SCORE_EXACT)
    (hmem : (j₂, c₂) ∈ m) (hjid : mt.jid = j₂) (hsrc : c₂.source = some .imported) :
    ∀ j₁ c₁, (j₁, c₁) ∈ m → endsWith j₁ netSuffix = true →
      c₁.source = some .manual → ∀ v ∈ getNameVariants c₁,
        scoreVariant (normalize name) ((splitWs (normalize name)).dedup) v ≠
          (findBestInMap m (normalize name) ((splitWs (normalize name)).dedup)
            ⟨0, none, none⟩).score := by
  intro j₁ c₁ hmem1 hnet1 hman1 v hv
  by_cases hq : normalize name = []
  · rw [findContact_empty_query m name none hq] at hres
    exact absurd hres (by simp)
  · have hres' : (findBestInMap m (normalize name) ((splitWs (normalize name)).dedup)
        ⟨0, none, none⟩).found = some mt := by
      simp only [findContact] at hres
      rw [if_neg hq] at hres
      exact hres
    rw [findBestInMap_eq_scan] at hres' hscore ⊢
    -- identify the winner's source as imported
    have hwin : (scanCands (normalize name) ((splitWs (normalize name)).dedup)
        (candsOf m) ⟨0, none, none⟩).source = some .imported := by
      rcases scanCands_cases (normalize name) ((splitWs (normalize name)).dedup)
          (candsOf m) ⟨0, none, none⟩ with hE | ⟨cd, hcd, hE⟩
      · rw [hE] at hres'
        exact absurd hres' (by simp)
      · rw [hE] at hres' ⊢
        have hmt : mt = ⟨cd.jid, cd.displayName⟩ := by
          simpa using hres'.symm
        obtain ⟨p, hp, hpj, hpsrc, _, _⟩ := candsOf_mem_entry hcd
        have hkey : cd.jid = j₂ := by
          rw [hmt] at hjid
          exact hjid
        have hc : p.2 = c₂ := by
          refine nodup_keys_eq hnodup ?_ hmem
          rw [← hkey, hpj]
          simpa using hp
        dsimp only
        rw [hpsrc, hc, hsrc]
    have := scanCands_no_manual_tie (normalize name)
      ((splitWs (normalize name)).dedup) (candsOf m) ⟨0, none, none⟩ hscore hwin
      ⟨j₁, getDisplayName c₁, c₁.source, v⟩ (mem_candsOf hmem1 hnet1 hv)
      (by simpa using hman1)
    simpa using this

theorem findContact_tie_break_manual_witness :
    scoreVariant (normalize "bo".toList) ((splitWs (normalize "bo".toList)).dedup)
        (normalize "rob".toList) ≠
      (findBestInMap
        [("1@s.whatsapp.net".toList,
          { id := "1@s.whatsapp.net".toList, name := some "bob".toList,
            source := some .imported, addedAt := some "t0".toList }),
         ("2@s.whatsapp.net".toList,
          { id := "2@s.whatsapp.net".toList, name := some "rob".toList,
            source := some .manual, addedAt := some "t1".toList })]
        (normalize "bo".toList) ((splitWs (normalize "bo".toList)).dedup)
        ⟨0, none, none⟩).score :=
  findContact_tie_break_manual
    [("1@s.whatsapp.net".toList,
      { id := "1@s.whatsapp.net".toList, name := some "bob".toList,
        source := some .imported, addedAt := some "t0".toList }),
     ("2@s.whatsapp.net".toList,
      { id := "2@s.whatsapp.net".toList, name := some "rob".toList,
        source := some .manual, addedAt := some "t1".toList })]
    "bo".toList ⟨"1@s.whatsapp.net".toList, "bob".toList⟩
    "1@s.whatsapp.net".toList
    { id := "1@s.whatsapp.net".toList, name := some "bob".toList,
      source := some .imported, addedAt := some "t0".toList }
    (by decide)
    (by norm_num +decide [findContact, findBestInMap, scanEntries, scanVariants,
      scoreVariant, tokenOverlap, firstToken, splitWs, splitWsGo, normalize, jsTrim,
      jsWs, jsToLower, nfdStrip, baseLetter, keepChar, getNameVariants, getDisplayName,
      jsOrElse, levenshtein, levFuel, endsWith, netSuffix, SCORE_EXACT,
      SCORE_FIRST_NAME, SCORE_TOKEN_OVERLAP, SCORE_STARTS_WITH, SCORE_CONTAINS,
      SCORE_FUZZY])
    (by norm_num +decide [findBestInMap, scanEntries, scanVariants,
      scoreVariant, tokenOverlap, firstToken, splitWs, splitWsGo, normalize, jsTrim,
      jsWs, jsToLower, nfdStrip, baseLetter, keepChar, getNameVariants, getDisplayName,
      jsOrElse, levenshtein, levFuel, endsWith, netSuffix, SCORE_EXACT,
      SCORE_FIRST_NAME, SCORE_TOKEN_OVERLAP, SCORE_STARTS_WITH, SCORE_CONTAINS,
      SCORE_FUZZY])
    (by decide) rfl rfl
    "2@s.whatsapp.net".toList
    { id := "2@s.whatsapp.net".toList, name := some "rob".toList,
      source := some .manual, addedAt := some "t1".toList }
    (by decide) (by decide) rfl (normalize "rob".toList) (by decide)

/-! ### The scoring-tier table of claim C2 -/

/-- Jaccard similarity of the sets of whitespace tokens of two strings,
`|A ∩ B| / |A ∪ B|`, as the claim words it (no further guard). -/
def jaccardTokens (a b : Str) : ℚ :=
  (((splitWs a).toFinset ∩ (splitWs b).toFinset).card : ℚ) /
    (((splitWs a).toFinset ∪ (splitWs b).toFinset).card : ℚ)

/-- The scoring table exactly as claim C2 states it, highest tier first:
the token-overlap tier fires whenever the plain Jaccard similarity is at
least `1/2`. -/
def scoreTiersClaim (q v : Str) : ℚ :=
  if v = q then 100
  else if firstToken v = q then 85
  else if jaccardTokens q v ≥ 1/2 then 70 * jaccardTokens q v
  else if q.isPrefixOf v then 60
  else if q <:+: v then 40
  else if levenshtein q v ≤ max 1 (q.length / 4) then
    20 * (1 - (levenshtein q v : ℚ) / (q.length : ℚ))
  else if levenshtein q (firstToken v) ≤ max 1 (q.length / 4) then
    20 * (1 - (levenshtein q (firstToken v) : ℚ) / (q.length : ℚ))
  else 0

/-- The amended scoring table: as claim C2 states it, except that the
token-overlap tier additionally requires at least one of the two sides to
have more than one distinct whitespace token (the guard the code's
`tokenOverlap` applies before computing the Jaccard similarity). -/
def scoreTiersAmended (q v : Str) : ℚ :=
  if v = q then 100
  else if firstToken v = q then 85
  else if (1 < (splitWs q).toFinset.card ∨ 1 < (splitWs v).toFinset.card) ∧
      jaccardTokens q v ≥ 1/2 then 70 * jaccardTokens q v
  else if q.isPrefixOf v then 60
  else if q <:+: v then 40
  else if levenshtein q v ≤ max 1 (q.length / 4) then
    20 * (1 - (levenshtein q v : ℚ) / (q.length : ℚ))
  else if levenshtein q (firstToken v) ≤ max 1 (q.length / 4) then
    20 * (1 - (levenshtein q (firstToken v) : ℚ) / (q.length : ℚ))
  else 0

lemma inter_card_eq (a b : Str) :
    ((splitWs a).dedup.filter (fun t => decide (t ∈ (splitWs b).dedup))).length =
      ((splitWs a).toFinset ∩ (splitWs b).toFinset).card := by
  have hnd : ((splitWs a).dedup.filter
      (fun t => decide (t ∈ (splitWs b).dedup))).Nodup :=
    (List.nodup_dedup (splitWs a)).filter _
  rw [← List.toFinset_card_of_nodup hnd]
  congr 1
  ext x
  simp [List.mem_filter, List.mem_dedup]

lemma union_card_eq (a b : Str) :
    ((splitWs a).toFinset ∪ (splitWs b).toFinset).card =
      (splitWs a).dedup.length + (splitWs b).dedup.length -
        ((splitWs a).dedup.filter (fun t => decide (t ∈ (splitWs b).dedup))).length := by
  have h := Finset.card_union_add_card_inter (splitWs a).toFinset (splitWs b).toFinset
  have hA := List.card_toFinset (splitWs a)
  have hB := List.card_toFinset (splitWs b)
  have hI := inter_card_eq a b
  omega

/-- The code's `tokenOverlap` is the claim's Jaccard similarity guarded by
the both-sides-at-most-one-token early return. -/
lemma tokenOverlap_eq (a b : Str) :
    tokenOverlap a b =
      if (splitWs a).dedup.length ≤ 1 ∧ (splitWs b).dedup.length ≤ 1 then 0
      else jaccardTokens a b := by
  unfold tokenOverlap jaccardTokens
  dsimp only
  by_cases h : (splitWs a).dedup.length ≤ 1 ∧ (splitWs b).dedup.length ≤ 1
  · rw [if_pos h, if_pos h]
  · rw [if_neg h, if_neg h]
    by_cases hu : (splitWs a).dedup.length + (splitWs b).dedup.length -
        ((splitWs a).dedup.filter (fun t => decide (t ∈ (splitWs b).dedup))).length = 0
    · rw [if_pos hu]
      have : ((splitWs a).toFinset ∪ (splitWs b).toFinset).card = 0 := by
        rw [union_card_eq]
        exact hu
      rw [this]
      norm_num
    · rw [if_neg hu, inter_card_eq, union_card_eq, inter_card_eq]

/-- C2 counterexample: for the normalized query `"x x"` and candidate
`"x x x"` (each a fixed point of `normalize`), the plain Jaccard token
similarity is `1 ≥ 1/2`, the exact and first-name tiers do not apply, so
the claim's table assigns `70 · 1 = 70`; the code's `scoreVariant` returns
`60` (prefix tier), because its token-overlap tier is guarded off when
both sides have at most one distinct token. -/
theorem scoreVariant_tier_table_cex :
    normalize "x x".toList = "x x".toList ∧
      normalize "x x x".toList = "x x x".toList ∧
      "x x x".toList ≠ "x x".toList ∧
      firstToken "x x x".toList ≠ "x x".toList ∧
      jaccardTokens "x x".toList "x x x".toList = 1 ∧
      scoreTiersClaim "x x".toList "x x x".toList = 70 ∧
      scoreVariant "x x".toList ((splitWs "x x".toList).dedup) "x x x".toList = 60 := by
  have hj : jaccardTokens "x x".toList "x x x".toList = 1 := by
    have h1 : ((splitWs "x x".toList).toFinset ∩ (splitWs "x x x".toList).toFinset).card
        = 1 := by decide
    have h2 : ((splitWs "x x".toList).toFinset ∪ (splitWs "x x x".toList).toFinset).card
        = 1 := by decide
    rw [jaccardTokens, h1, h2]
    norm_num
  refine ⟨by decide, by decide, by decide, by decide, hj, ?_, ?_⟩
  · rw [scoreTiersClaim, if_neg (by decide), if_neg (by decide),
      if_pos (by rw [hj]; norm_num), hj]
    norm_num
  · norm_num +decide [scoreVariant, tokenOverlap, firstToken, splitWs, splitWsGo,
      jsWs, levenshtein, levFuel, SCORE_EXACT, SCORE_FIRST_NAME, SCORE_TOKEN_OVERLAP,
      SCORE_STARTS_WITH, SCORE_CONTAINS, SCORE_FUZZY]

/-- C2 (amended): for every query and candidate name field, `scoreVariant`
computes exactly the claimed tier table — 100 for an exact match, 85 for a
first-token match, 70 scaled by the Jaccard token similarity `j` when
`j ≥ 1/2` *and at least one side has more than one distinct token*, 60 for
a prefix, 40 for a substring, 20 scaled by `1 − d/len(q)` for an edit
distance `d ≤ max(1, ⌊len(q)/4⌋)` to the field or its first token, and 0
otherwise.  (The matcher only ever calls this with `q` and `v` normalized
and `q` nonempty; the equation holds for all inputs.) -/
theorem scoreVariant_tier_table (q : Str) (qt : List Str) (v : Str) :
    scoreVariant q qt v = scoreTiersAmended q v := by
  unfold scoreVariant scoreTiersAmended
  simp only [SCORE_EXACT, SCORE_FIRST_NAME, SCORE_TOKEN_OVERLAP, SCORE_STARTS_WITH,
    SCORE_CONTAINS, SCORE_FUZZY]
  by_cases h1 : v = q
  · rw [if_pos h1, if_pos h1]
  · rw [if_neg h1, if_neg h1]
    by_cases h2 : firstToken v = q
    · rw [if_pos h2, if_pos h2]
    · rw [if_neg h2, if_neg h2]
      rw [tokenOverlap_eq]
      by_cases hg : (splitWs q).dedup.length ≤ 1 ∧ (splitWs v).dedup.length ≤ 1
      · rw [if_pos hg]
        have hg' : ¬((1 < (splitWs q).toFinset.card ∨ 1 < (splitWs v).toFinset.card) ∧
            jaccardTokens q v ≥ 1/2) := by
          rw [List.card_toFinset, List.card_toFinset]
          push_neg
          intro hcon
          omega
        rw [if_neg (by norm_num), if_neg hg']
      · rw [if_neg hg]
        have hg' : 1 < (splitWs q).toFinset.card ∨ 1 < (splitWs v).toFinset.card := by
          rw [List.card_toFinset, List.card_toFinset]
          omega
        by_cases hj : jaccardTokens q v ≥ 1/2
        · rw [if_pos hj, if_pos ⟨hg', hj⟩]
        · rw [if_neg hj,
            if_neg (show ¬((1 < (splitWs q).toFinset.card ∨
                1 < (splitWs v).toFinset.card) ∧ jaccardTokens q v ≥ 1/2) from
              fun hcon => hj hcon.2)]

/-! ### The two passes of `findContact` (claim C1) -/

/-- The saved-contacts pass of `findContact`: scan the saved directory
from the zero state. -/
def savedPass (saved : List (Str × Contact)) (name : Str) : BestState :=
  findBestInMap saved (normalize name) ((splitWs (normalize name)).dedup)
    ⟨0, none, none⟩

/-- The learned-directory pass of `findContact`: scan the learned
directory carrying the saved-pass result as the baseline. -/
def carriedPass (contacts saved : List (Str × Contact)) (name : Str) : BestState :=
  findBestInMap contacts (normalize name) ((splitWs (normalize name)).dedup)
    (savedPass saved name)

/-- The best score any candidate of a contact map achieves against the
normalized query (`0` when there are no candidates). -/
def bestMapScore (m : List (Str × Contact)) (name : Str) : ℚ :=
  maxScore (normalize name) ((splitWs (normalize name)).dedup) (candsOf m)

lemma scanCands_of_max_zero (q : Str) (qt : List Str) (cds : List Cand)
    (h : maxScore q qt cds = 0) :
    scanCands q qt cds ⟨0, none, none⟩ = ⟨0, none, none⟩ := by
  by_contra hne
  rcases scanCands_ne q qt cds _ hne with hlt | ⟨_, hsrc, _⟩
  · rw [scanCands_score q qt cds _ le_rfl, h] at hlt
    norm_num at hlt
  · simp at hsrc

lemma findContact_eq_short (contacts saved : List (Str × Contact)) (name : Str)
    (hq : normalize name ≠ [])
    (h1 : (savedPass saved name).found.isSome = true)
    (h2 : (savedPass saved name).score ≥ SCORE_FIRST_NAME) :
    findContact contacts name (some saved) = (savedPass saved name).found := by
  simp only [findContact]
  rw [if_neg hq]
  by_cases hlen : 0 < saved.length
  · rw [if_pos hlen]
    have hcond : (findBestInMap saved (normalize name) ((splitWs (normalize name)).dedup)
        ⟨0, none, none⟩).found.isSome = true ∧
        (findBestInMap saved (normalize name) ((splitWs (normalize name)).dedup)
          ⟨0, none, none⟩).score ≥ SCORE_FIRST_NAME := ⟨h1, h2⟩
    rw [if_pos hcond]
    rfl
  · have hnil : saved = [] := by
      cases saved with
      | nil => rfl
      | cons a rest => simp at hlen
    subst hnil
    have : (savedPass ([] : List (Str × Contact)) name).found = none := rfl
    rw [this] at h1
    simp at h1

lemma findContact_eq_carry (contacts saved : List (Str × Contact)) (name : Str)
    (hq : normalize name ≠ [])
    (h : ¬((savedPass saved name).found.isSome = true ∧
        (savedPass saved name).score ≥ SCORE_FIRST_NAME)) :
    findContact contacts name (some saved) = (carriedPass contacts saved name).found := by
  simp only [findContact]
  rw [if_neg hq]
  by_cases hlen : 0 < saved.length
  · rw [if_pos hlen]
    have hcond : ¬((findBestInMap saved (normalize name)
        ((splitWs (normalize name)).dedup) ⟨0, none, none⟩).found.isSome = true ∧
        (findBestInMap saved (normalize name) ((splitWs (normalize name)).dedup)
          ⟨0, none, none⟩).score ≥ SCORE_FIRST_NAME) := h
    rw [if_neg hcond]
    rfl
  · have hnil : saved = [] := by
      cases saved with
      | nil => rfl
      | cons a rest => simp at hlen
    subst hnil
    rw [if_neg hlen]
    rfl

/-- The amended claim C1, bundled: (i) a saved-pass match at or above the
first-name tier is returned, for every learned directory alike; (ii)
otherwise the learned directory is scanned with the saved-pass result as
the baseline; (iii) the learned scan displaces the baseline only when a
candidate scores strictly more, or ties it with a manual source against an
imported baseline; (iv) each pass computes the maximum candidate score;
(v) a returned match is the saved baseline or a learned candidate
achieving the final score; (vi) if every candidate in both directories
scores zero, `findContact` returns `none`. -/
def SavedPriorityProp (contacts saved : List (Str × Contact)) (name : Str) : Prop :=
  (∀ mt, (savedPass saved name).found = some mt →
      SCORE_FIRST_NAME ≤ (savedPass saved name).score →
      findContact contacts name (some saved) = some mt) ∧
  (((savedPass saved name).found = none ∨
      (savedPass saved name).score < SCORE_FIRST_NAME) →
    findContact contacts name (some saved) = (carriedPass contacts saved name).found) ∧
  ((carriedPass contacts saved name).found ≠ (savedPass saved name).found →
    (savedPass saved name).score < (carriedPass contacts saved name).score ∨
      ((carriedPass contacts saved name).score = (savedPass saved name).score ∧
        (savedPass saved name).source = some .imported ∧
        (carriedPass contacts saved name).source = some .manual)) ∧
  ((savedPass saved name).score = bestMapScore saved name ∧
    (carriedPass contacts saved name).score =
      max (savedPass saved name).score (bestMapScore contacts name)) ∧
  (∀ mt, (carriedPass contacts saved name).found = some mt →
      (savedPass saved name).found = some mt ∨
      ∃ cd ∈ candsOf contacts, mt = ⟨cd.jid, cd.displayName⟩ ∧
        scoreVariant (normalize name) ((splitWs (normalize name)).dedup) cd.variant =
          (carriedPass contacts saved name).score) ∧
  (bestMapScore saved name = 0 → bestMapScore contacts name = 0 →
    findContact contacts name (some saved) = none)

/-- C1 (amended): the saved-first matching rule of `findContact`, with the
displacement rule amended to account for the manual-over-import tie-break
that the shared scan applies when a learned candidate ties the carried
baseline. -/
theorem findContact_saved_priority (contacts saved : List (Str × Contact))
    (name : Str) (hq : normalize name ≠ []) :
    SavedPriorityProp contacts saved name := by
  have hS0 : (0 : ℚ) ≤ (savedPass saved name).score := by
    rw [savedPass, findBestInMap_eq_scan, scanCands_score _ _ _ _ le_rfl]
    exact le_max_left _ _
  refine ⟨?_, ?_, ?_, ⟨?_, ?_⟩, ?_, ?_⟩
  · -- (i) short-circuit
    intro mt hmt hge
    rw [findContact_eq_short contacts saved name hq (by rw [hmt]; rfl) hge, hmt]
  · -- (ii) carry the baseline
    intro h
    refine findContact_eq_carry contacts saved name hq ?_
    rintro ⟨h1, h2⟩
    rcases h with h | h
    · rw [h] at h1
      simp at h1
    · exact absurd h2 (not_le.mpr h)
  · -- (iii) amended displacement rule
    intro hne
    have hne' : carriedPass contacts saved name ≠ savedPass saved name := by
      intro hE
      rw [hE] at hne
      exact hne rfl
    rw [carriedPass, findBestInMap_eq_scan] at hne' ⊢
    exact scanCands_ne _ _ _ _ hne'
  · -- (iv-a) saved pass score
    rw [savedPass, findBestInMap_eq_scan, scanCands_score _ _ _ _ le_rfl,
      bestMapScore]
    dsimp only
    exact max_eq_right (maxScore_nonneg _ _ _)
  · -- (iv-b) carried pass score
    rw [carriedPass, findBestInMap_eq_scan, scanCands_score _ _ _ _ hS0,
      bestMapScore]
  · -- (v) provenance
    intro mt hmt
    rw [carriedPass, findBestInMap_eq_scan] at hmt ⊢
    rcases scanCands_cases (normalize name) ((splitWs (normalize name)).dedup)
        (candsOf contacts) (savedPass saved name) with hE | ⟨cd, hcd, hE⟩
    · rw [hE] at hmt
      exact Or.inl hmt
    · rw [hE] at hmt ⊢
      refine Or.inr ⟨cd, hcd, ?_, rfl⟩
      simpa using hmt.symm
  · -- (vi) all-zero gives none
    intro hs hc
    have hSzero : savedPass saved name = ⟨0, none, none⟩ := by
      rw [savedPass, findBestInMap_eq_scan]
      exact scanCands_of_max_zero _ _ _ hs
    have hCzero : carriedPass contacts saved name = ⟨0, none, none⟩ := by
      rw [carriedPass, findBestInMap_eq_scan, hSzero]
      exact scanCands_of_max_zero _ _ _ hc
    rw [findContact_eq_carry contacts saved name hq ?_, hCzero]
    rintro ⟨h1, _⟩
    rw [hSzero] at h1
    simp at h1

theorem findContact_saved_priority_witness :
    SavedPriorityProp
      [("2@s.whatsapp.net".toList,
        { id := "2@s.whatsapp.net".toList, name := some "bob".toList,
          source := some .manual, addedAt := some "t1".toList })]
      [("1@s.whatsapp.net".toList,
        { id := "1@s.whatsapp.net".toList, name := some "bob".toList,
          source := some .imported, addedAt := some "t0".toList })]
      "bo".toList :=
  findContact_saved_priority _ _ _ (by decide)

/-- C1 counterexample: the saved pass ends at score 60 on an
imported-sourced saved contact; the learned directory holds a
manual-sourced contact whose best variant also scores 60 — not strictly
greater — yet it displaces the carried baseline (the manual-over-import
tie-break), so `findContact` returns the learned contact, refuting the
claim's "only when its score is strictly greater". -/
theorem findContact_saved_priority_cex :
    savedPass
        [("1@s.whatsapp.net".toList,
          { id := "1@s.whatsapp.net".toList, name := some "bob".toList,
            source := some .imported, addedAt := some "t0".toList })]
        "bo".toList =
      ⟨60, some ⟨"1@s.whatsapp.net".toList, "bob".toList⟩, some .imported⟩ ∧
    carriedPass
        [("2@s.whatsapp.net".toList,
          { id := "2@s.whatsapp.net".toList, name := some "bob".toList,
            source := some .manual, addedAt := some "t1".toList })]
        [("1@s.whatsapp.net".toList,
          { id := "1@s.whatsapp.net".toList, name := some "bob".toList,
            source := some .imported, addedAt := some "t0".toList })]
        "bo".toList =
      ⟨60, some ⟨"2@s.whatsapp.net".toList, "bob".toList⟩, some .manual⟩ ∧
    findContact
        [("2@s.whatsapp.net".toList,
          { id := "2@s.whatsapp.net".toList, name := some "bob".toList,
            source := some .manual, addedAt := some "t1".toList })]
        "bo".toList
        (some [("1@s.whatsapp.net".toList,
          { id := "1@s.whatsapp.net".toList, name := some "bob".toList,
            source := some .imported, addedAt := some "t0".toList })]) =
      some ⟨"2@s.whatsapp.net".toList, "bob".toList⟩ := by
  refine ⟨?_, ?_, ?_⟩ <;>
    norm_num +decide [savedPass, carriedPass, findContact, findBestInMap, scanEntries,
      scanVariants, scoreVariant, tokenOverlap, firstToken, splitWs, splitWsGo,
      normalize, jsTrim, jsWs, jsToLower, nfdStrip, baseLetter, keepChar,
      getNameVariants, getDisplayName, jsOrElse, levenshtein, levFuel, endsWith,
      netSuffix, SCORE_EXACT, SCORE_FIRST_NAME, SCORE_TOKEN_OVERLAP,
      SCORE_STARTS_WITH, SCORE_CONTAINS, SCORE_FUZZY]

/-! ### The contact directory of `whatsapp.ts` -/

/-- JS `Map.prototype.get`. -/
def mapGet {β : Type} : List (Str × β) → Str → Option β
  | [], _ => none
  | (k', v) :: rest, k => if k' = k then some v else mapGet rest k

/-- JS `Map.prototype.set`: replace the value in place when the key is
present (keys of a `Map` are unique, insertion order is preserved),
otherwise append. -/
def mapSet {β : Type} : List (Str × β) → Str → β → List (Str × β)
  | [], k, v => [(k, v)]
  | (k', v') :: rest, k, v =>
    if k' = k then (k, v) :: rest
    else (k', v') :: mapSet rest k v

lemma mapGet_mapSet_self {β : Type} (m : List (Str × β)) (k : Str) (v : β) :
    mapGet (mapSet m k v) k = some v := by
  induction m with
  | nil => simp [mapSet, mapGet]
  | cons p rest ih =>
    obtain ⟨k', v'⟩ := p
    by_cases h : k' = k
    · simp [mapSet, mapGet, h]
    · simp [mapSet, mapGet, h, ih]

lemma mapGet_mapSet_ne {β : Type} (m : List (Str × β)) (k k' : Str) (v : β)
    (h : k' ≠ k) : mapGet (mapSet m k v) k' = mapGet m k' := by
  have h' : ¬k = k' := fun hE => h hE.symm
  induction m with
  | nil => simp [mapSet, mapGet, h']
  | cons p rest ih =>
    obtain ⟨k0, v0⟩ := p
    by_cases h0 : k0 = k
    · subst h0
      simp [mapSet, mapGet, h']
    · simp only [mapSet, if_neg h0, mapGet]
      by_cases h1 : k0 = k'
      · simp [h1]
      · simp [h1, ih]

/-- Per-uid directory state: the canonical contact store (keyed by phone
jid) and the LID → JID map, the two per-uid JS `Map`s of `whatsapp.ts`. -/
structure DirState where
  store : List (Str × Contact)
  lidMap : List (Str × Str)
deriving DecidableEq

/-- `registerLidMapping`: record a LID → JID mapping. -/
def registerLidMapping (st : DirState) (lid jid : Str) : DirState :=
  { st with lidMap := mapSet st.lidMap lid jid }

def lidSuffix : Str := "@lid".toList

/-- `resolveToJid`: a phone jid resolves to itself, a LID through the
map (possibly to nothing), anything else to nothing. -/
def resolveToJid (st : DirState) (id : Str) : Option Str :=
  if endsWith id netSuffix then some id
  else if endsWith id lidSuffix then mapGet st.lidMap id
  else none

/-- The merge `{...existing, ...contact, id: jid}` of `upsertContact`,
followed by the phonebook-name preference fix-up.  A JS key that is absent
and one explicitly set to `undefined` are both modelled as `none`; under
that identification the spread already keeps the existing value for absent
incoming fields, and the explicit `name` fix-up branch (kept to mirror the
code) is a no-op. -/
def mergeContact (jid : Str) (existing : Option Contact) (c : Contact) : Contact :=
  match existing with
  | none => { c with id := jid }
  | some e =>
    let m : Contact :=
      { id := jid
        name := (c.name.orElse fun _ => e.name)
        notify := (c.notify.orElse fun _ => e.notify)
        verifiedName := (c.verifiedName.orElse fun _ => e.verifiedName)
        lid := (c.lid.orElse fun _ => e.lid)
        source := (c.source.orElse fun _ => e.source)
        addedAt := (c.addedAt.orElse fun _ => e.addedAt)
        updatedAt := (c.updatedAt.orElse fun _ => e.updatedAt) }
    if isTruthy e.name && !(isTruthy c.name) then { m with name := e.name } else m

/-- `upsertContact`: register a LID mapping carried by a canonical-id
record, resolve the storage key, drop the record when no key can be
resolved, otherwise merge into the store under the resolved jid. -/
def upsertContact (st : DirState) (c : Contact) : DirState :=
  let st1 :=
    if endsWith c.id netSuffix && isTruthy c.lid then
      registerLidMapping st (c.lid.getD []) c.id
    else st
  match resolveToJid st1 c.id with
  | none => st1
  | some jid =>
    if jid.isEmpty then st1
    else { st1 with store := mapSet st1.store jid (mergeContact jid (mapGet st1.store jid) c) }

/-- The part of a Baileys `WAMessageKey` this code reads. -/
structure WAMessageKey where
  participant : Option Str := none
  remoteJid : Option Str := none
deriving DecidableEq

/-- The part of a Baileys `WAMessage` this code reads. -/
structure WAMessage where
  key : Option WAMessageKey := none
  pushName : Option Str := none
deriving DecidableEq

/-- `msg.key?.participant || msg.key?.remoteJid` (JS `||`: the second
operand when the first is absent or empty). -/
def msgSenderId (msg : WAMessage) : Option Str :=
  match msg.key with
  | none => none
  | some k =>
    match k.participant with
    | some p => if p.isEmpty then k.remoteJid else some p
    | none => k.remoteJid

/-- One iteration of the `enrichContactsFromMessages` loop, threading the
store state and the `enriched` counter. -/
def enrichStep (includeBareNumbers : Bool) (acc : DirState × Nat) (msg : WAMessage) :
    DirState × Nat :=
  match msgSenderId msg with
  | none => acc
  | some id =>
    if id.isEmpty || endsWith id "@g.us".toList || id = "status@broadcast".toList then acc
    else
      match resolveToJid acc.1 id with
      | none => acc
      | some jid =>
        if jid.isEmpty then acc
        else
          let existing := mapGet acc.1.store jid
          let acc1 :=
            if existing.isNone && includeBareNumbers then
              (upsertContact acc.1 { id := id }, acc.2 + 1)
            else acc
          match msg.pushName with
          | none => acc1
          | some pn =>
            if pn.isEmpty then acc1
            else
              let latest := mapGet acc1.1.store jid
              if isTruthy (latest.bind fun c => c.notify) then acc1
              else (upsertContact acc1.1 { id := id, notify := some pn }, acc1.2 + 1)

/-- `enrichContactsFromMessages`: fill in contact records from message
sender ids and push names; returns the new state and the `enriched`
count. -/
def enrichContactsFromMessages (st : DirState) (messages : List WAMessage)
    (includeBareNumbers : Bool) : DirState × Nat :=
  messages.foldl (enrichStep includeBareNumbers) (st, 0)

lemma endsWith_lid_not_net {s : Str} (h : endsWith s lidSuffix = true) :
    endsWith s netSuffix = false := by
  cases hEW : endsWith s netSuffix
  · rfl
  · exfalso
    have h1 : lidSuffix <:+ s := of_decide_eq_true h
    have h2 : netSuffix <:+ s := of_decide_eq_true hEW
    rcases List.suffix_or_suffix_of_suffix h1 h2 with hs | hs
    · exact absurd hs (by decide)
    · exact absurd hs (by decide)

lemma endsWith_nonempty {s p : Str} (hp : p ≠ []) (h : endsWith s p = true) :
    s.isEmpty = false := by
  have h1 : p <:+ s := of_decide_eq_true h
  cases s with
  | nil => exact absurd (List.suffix_nil.mp h1) hp
  | cons a l => rfl

/-- C3: an incoming record whose own id is a linked-id with no entry in
the LID → JID map leaves the directory completely unchanged (the record is
dropped, never stored under the linked-id key); and once an event carrying
the canonical id together with that linked-id has recorded the mapping, a
subsequent upsert of the linked-id record is stored under the canonical
id: the contact is present under the canonical id and no entry keyed by
the linked-id exists. -/
theorem upsertContact_unmapped_lid :
    (∀ (st : DirState) (c : Contact), endsWith c.id lidSuffix = true →
      mapGet st.lidMap c.id = none → upsertContact st c = st) ∧
    (∀ (st : DirState) (e c : Contact) (lid : Str),
      endsWith e.id netSuffix = true → e.lid = some lid →
      endsWith lid lidSuffix = true → c.id = lid →
      mapGet st.store lid = none →
      (mapGet (upsertContact (upsertContact st e) c).store e.id).isSome = true ∧
        mapGet (upsertContact (upsertContact st e) c).store lid = none) := by
  constructor
  · intro st c hlid hmap
    have hnet : endsWith c.id netSuffix = false := endsWith_lid_not_net hlid
    simp [upsertContact, resolveToJid, hnet, hlid, hmap]
  · intro st e c lid hnet helid hlidsfx hcid hstore
    have hlid_ne : lid ≠ [] := by
      intro hE
      rw [hE] at hlidsfx
      exact absurd hlidsfx (by decide)
    have htruthy : isTruthy (some lid) = true := by
      cases lid with
      | nil => exact absurd rfl hlid_ne
      | cons a l => rfl
    have heid_ne : e.id.isEmpty = false := endsWith_nonempty (by decide) hnet
    have hlidnet : endsWith lid netSuffix = false := endsWith_lid_not_net hlidsfx
    have hne : lid ≠ e.id := by
      intro hE
      rw [hE, hnet] at hlidnet
      simp at hlidnet
    have h1 : upsertContact st e =
        { store := mapSet st.store e.id (mergeContact e.id (mapGet st.store e.id) e),
          lidMap := mapSet st.lidMap lid e.id } := by
      simp [upsertContact, registerLidMapping, resolveToJid, hnet, htruthy, helid,
        heid_ne]
    have h2 : upsertContact (upsertContact st e) c =
        { store := mapSet (mapSet st.store e.id (mergeContact e.id (mapGet st.store e.id) e))
            e.id
            (mergeContact e.id
              (mapGet (mapSet st.store e.id (mergeContact e.id (mapGet st.store e.id) e)) e.id)
              c),
          lidMap := mapSet st.lidMap lid e.id } := by
      rw [h1]
      simp [upsertContact, resolveToJid, hcid, hlidnet, hlidsfx, mapGet_mapSet_self,
        heid_ne]
    rw [h2]
    constructor
    · rw [mapGet_mapSet_self]
      rfl
    · rw [mapGet_mapSet_ne _ _ _ _ hne, mapGet_mapSet_ne _ _ _ _ hne]
      exact hstore

theorem upsertContact_unmapped_lid_witness :
    upsertContact ⟨[], []⟩ { id := "9@lid".toList, notify := some "bob".toList } =
        ⟨[], []⟩ ∧
      (mapGet (upsertContact
          (upsertContact ⟨[], []⟩
            { id := "7@s.whatsapp.net".toList, lid := some "9@lid".toList })
          { id := "9@lid".toList, notify := some "bob".toList }).store
        "7@s.whatsapp.net".toList).isSome = true ∧
      mapGet (upsertContact
          (upsertContact ⟨[], []⟩
            { id := "7@s.whatsapp.net".toList, lid := some "9@lid".toList })
          { id := "9@lid".toList, notify := some "bob".toList }).store
        "9@lid".toList = none :=
  ⟨upsertContact_unmapped_lid.1 ⟨[], []⟩ _ (by decide) (by decide),
    upsertContact_unmapped_lid.2 ⟨[], []⟩
      { id := "7@s.whatsapp.net".toList, lid := some "9@lid".toList }
      { id := "9@lid".toList, notify := some "bob".toList }
      "9@lid".toList (by decide) rfl (by decide) rfl (by decide)⟩

/-- The stored address-book name at key `k`. -/
def nameAt (st : DirState) (k : Str) : Option Str :=
  (mapGet st.store k).bind fun c => c.name

/-- The stored push name at key `k`. -/
def notifyAt (st : DirState) (k : Str) : Option Str :=
  (mapGet st.store k).bind fun c => c.notify

lemma mergeContact_name (jid : Str) (e c : Contact) (hc : c.name = none) :
    (mergeContact jid (some e) c).name = e.name := by
  unfold mergeContact
  dsimp only
  split
  · rfl
  · simp [hc]

lemma mergeContact_notify (jid : Str) (e c : Contact) (hc : c.notify = none) :
    (mergeContact jid (some e) c).notify = e.notify := by
  unfold mergeContact
  dsimp only
  split
  · simp [hc]
  · simp [hc]

lemma upsertContact_lidMap (st : DirState) (c : Contact) (hlid : c.lid = none) :
    (upsertContact st c).lidMap = st.lidMap := by
  have ht : isTruthy c.lid = false := by rw [hlid]; rfl
  unfold upsertContact
  simp only [ht, Bool.and_false, Bool.false_eq_true, if_false]
  rcases resolveToJid st c.id with _ | jid
  · rfl
  · dsimp only
    split <;> rfl

lemma upsertContact_no_lid_store (st : DirState) (c : Contact) (hlid : c.lid = none) :
    (upsertContact st c).store =
      (match resolveToJid st c.id with
       | none => st.store
       | some jid =>
         if jid.isEmpty then st.store
         else mapSet st.store jid (mergeContact jid (mapGet st.store jid) c)) := by
  have ht : isTruthy c.lid = false := by rw [hlid]; rfl
  unfold upsertContact
  simp only [ht, Bool.and_false, Bool.false_eq_true, if_false]
  rcases resolveToJid st c.id with _ | jid
  · rfl
  · dsimp only
    split <;> rfl

lemma resolveToJid_of_lidMap_eq (st st' : DirState) (id : Str)
    (h : st.lidMap = st'.lidMap) : resolveToJid st id = resolveToJid st' id := by
  unfold resolveToJid
  rw [h]

lemma upsertContact_keeps_name (st : DirState) (c : Contact) (k n : Str)
    (hc : c.name = none) (h : nameAt st k = some n) :
    nameAt (upsertContact st c) k = some n := by
  have hs : (upsertContact st c).store = st.store ∨
      ∃ jid, (upsertContact st c).store =
        mapSet st.store jid (mergeContact jid (mapGet st.store jid) c) := by
    unfold upsertContact
    dsimp only
    have hst1 : (if endsWith c.id netSuffix && isTruthy c.lid then
        registerLidMapping st (c.lid.getD []) c.id else st).store = st.store := by
      split <;> rfl
    rcases hres : resolveToJid (if endsWith c.id netSuffix && isTruthy c.lid then
        registerLidMapping st (c.lid.getD []) c.id else st) c.id with _ | jid
    · exact Or.inl hst1
    · dsimp only
      split
      · exact Or.inl hst1
      · rw [hst1]
        exact Or.inr ⟨jid, rfl⟩
  rcases hs with hE | ⟨jid, hE⟩
  · rw [nameAt, hE]
    exact h
  · rw [nameAt, hE]
    by_cases hk : k = jid
    · subst hk
      rw [mapGet_mapSet_self]
      rcases hex : mapGet st.store k with _ | e
      · rw [nameAt, hex] at h
        simp at h
      · rw [nameAt, hex] at h
        simp only [Option.some_bind] at h ⊢
        rw [mergeContact_name _ _ _ hc]
        exact h
    · rw [mapGet_mapSet_ne _ _ _ _ hk]
      exact h

lemma upsertContact_keeps_notify (st : DirState) (c : Contact) (k m : Str)
    (hc : c.notify = none) (h : notifyAt st k = some m) :
    notifyAt (upsertContact st c) k = some m := by
  have hs : (upsertContact st c).store = st.store ∨
      ∃ jid, (upsertContact st c).store =
        mapSet st.store jid (mergeContact jid (mapGet st.store jid) c) := by
    unfold upsertContact
    dsimp only
    have hst1 : (if endsWith c.id netSuffix && isTruthy c.lid then
        registerLidMapping st (c.lid.getD []) c.id else st).store = st.store := by
      split <;> rfl
    rcases hres : resolveToJid (if endsWith c.id netSuffix && isTruthy c.lid then
        registerLidMapping st (c.lid.getD []) c.id else st) c.id with _ | jid
    · exact Or.inl hst1
    · dsimp only
      split
      · exact Or.inl hst1
      · rw [hst1]
        exact Or.inr ⟨jid, rfl⟩
  rcases hs with hE | ⟨jid, hE⟩
  · rw [notifyAt, hE]
    exact h
  · rw [notifyAt, hE]
    by_cases hk : k = jid
    · subst hk
      rw [mapGet_mapSet_self]
      rcases hex : mapGet st.store k with _ | e
      · rw [notifyAt, hex] at h
        simp at h
      · rw [notifyAt, hex] at h
        simp only [Option.some_bind] at h ⊢
        rw [mergeContact_notify _ _ _ hc]
        exact h
    · rw [mapGet_mapSet_ne _ _ _ _ hk]
      exact h

lemma isTruthy_some {m : Str} (hm : m ≠ []) : isTruthy (some m) = true := by
  cases m with
  | nil => exact absurd rfl hm
  | cons a l => rfl

lemma enrichStep_keeps_name (inc : Bool) (acc : DirState × Nat) (msg : WAMessage)
    (k n : Str) (h : nameAt acc.1 k = some n) :
    nameAt (enrichStep inc acc msg).1 k = some n := by
  unfold enrichStep
  rcases msgSenderId msg with _ | id
  · exact h
  · dsimp only
    split
    · exact h
    · rcases resolveToJid acc.1 id with _ | jid
      · exact h
      · dsimp only
        split
        · exact h
        · have hacc1 : ∀ b : Bool, nameAt
              (if b then (upsertContact acc.1 { id := id }, acc.2 + 1) else acc).1 k =
              some n := by
            intro b
            cases b
            · exact h
            · exact upsertContact_keeps_name _ _ _ _ rfl h
          generalize hA : (if (mapGet acc.1.store jid).isNone && inc then
              (upsertContact acc.1 { id := id }, acc.2 + 1) else acc) = A
          have hfact : nameAt A.1 k = some n := by
            rw [← hA]
            exact hacc1 _
          rcases msg.pushName with _ | pn
          · exact hfact
          · dsimp only
            split
            · exact hfact
            · split
              · exact hfact
              · exact upsertContact_keeps_name _ _ _ _ rfl hfact

lemma enrichStep_keeps_notify (inc : Bool) (acc : DirState × Nat) (msg : WAMessage)
    (k m : Str) (hm : m ≠ []) (h : notifyAt acc.1 k = some m) :
    notifyAt (enrichStep inc acc msg).1 k = some m := by
  unfold enrichStep
  rcases msgSenderId msg with _ | id
  · exact h
  · dsimp only
    split
    · exact h
    · rcases hres : resolveToJid acc.1 id with _ | jid
      · exact h
      · dsimp only
        split
        · exact h
        · next hjid =>
          have hacc1 : ∀ b : Bool, notifyAt
              (if b then (upsertContact acc.1 { id := id }, acc.2 + 1) else acc).1 k =
              some m := by
            intro b
            cases b
            · exact h
            · exact upsertContact_keeps_notify _ _ _ _ rfl h
          have hlid1 : ∀ b : Bool,
              (if b then (upsertContact acc.1 { id := id }, acc.2 + 1) else acc).1.lidMap =
              acc.1.lidMap := by
            intro b
            cases b
            · rfl
            · exact upsertContact_lidMap _ _ rfl
          generalize hA : (if (mapGet acc.1.store jid).isNone && inc then
              (upsertContact acc.1 { id := id }, acc.2 + 1) else acc) = A
          have hfact : notifyAt A.1 k = some m := by
            rw [← hA]
            exact hacc1 _
          have hlidA : A.1.lidMap = acc.1.lidMap := by
            rw [← hA]
            exact hlid1 _
          rcases msg.pushName with _ | pn
          · exact hfact
          · dsimp only
            split
            · exact hfact
            · split
              · exact hfact
              · next hguard =>
                have hres' : resolveToJid A.1 id = some jid := by
                  rw [resolveToJid_of_lidMap_eq _ acc.1 id hlidA]
                  exact hres
                rw [notifyAt, upsertContact_no_lid_store _ _ rfl, hres']
                dsimp only
                rw [if_neg hjid]
                by_cases hk : k = jid
                · subst hk
                  exfalso
                  apply hguard
                  rcases hex : mapGet A.1.store k with _ | e
                  · rw [notifyAt, hex] at hfact
                    simp at hfact
                  · rw [notifyAt, hex] at hfact
                    simp only [Option.some_bind] at hfact
                    simp only [Option.some_bind, hfact]
                    exact isTruthy_some hm
                · rw [mapGet_mapSet_ne _ _ _ _ hk]
                  exact hfact

/-- C4: merge never regresses name trust: an incoming record that carries
no `name` field (for example one carrying only a self-chosen `notify`
name) leaves every stored `name` unchanged; and the push-name enrichment
pass never changes a stored `name` and only fills a missing `notify`
(every stored non-empty `notify` survives the pass). -/
theorem upsertContact_name_trust :
    (∀ (st : DirState) (c : Contact) (k n : Str), c.name = none →
      nameAt st k = some n → nameAt (upsertContact st c) k = some n) ∧
    (∀ (st : DirState) (msgs : List WAMessage) (inc : Bool) (k n : Str),
      nameAt st k = some n →
      nameAt (enrichContactsFromMessages st msgs inc).1 k = some n) ∧
    (∀ (st : DirState) (msgs : List WAMessage) (inc : Bool) (k m : Str), m ≠ [] →
      notifyAt st k = some m →
      notifyAt (enrichContactsFromMessages st msgs inc).1 k = some m) := by
  refine ⟨fun st c k n hc h => upsertContact_keeps_name st c k n hc h, ?_, ?_⟩
  · intro st msgs inc k n h
    unfold enrichContactsFromMessages
    suffices H : ∀ acc : DirState × Nat, nameAt acc.1 k = some n →
        nameAt (msgs.foldl (enrichStep inc) acc).1 k = some n from H (st, 0) h
    induction msgs with
    | nil => exact fun acc h => h
    | cons msg rest ih =>
      intro acc h
      rw [List.foldl_cons]
      exact ih _ (enrichStep_keeps_name inc acc msg k n h)
  · intro st msgs inc k m hm h
    unfold enrichContactsFromMessages
    suffices H : ∀ acc : DirState × Nat, notifyAt acc.1 k = some m →
        notifyAt (msgs.foldl (enrichStep inc) acc).1 k = some m from H (st, 0) h
    induction msgs with
    | nil => exact fun acc h => h
    | cons msg rest ih =>
      intro acc h
      rw [List.foldl_cons]
      exact ih _ (enrichStep_keeps_notify inc acc msg k m hm h)

theorem upsertContact_name_trust_witness :
    nameAt (upsertContact
        ⟨[("7@s.whatsapp.net".toList,
          { id := "7@s.whatsapp.net".toList, name := some "Ann Smith".toList,
            notify := some "annie".toList })], []⟩
        { id := "7@s.whatsapp.net".toList, notify := some "AnnaBanana".toList })
      "7@s.whatsapp.net".toList = some "Ann Smith".toList ∧
    nameAt (enrichContactsFromMessages
        ⟨[("7@s.whatsapp.net".toList,
          { id := "7@s.whatsapp.net".toList, name := some "Ann Smith".toList,
            notify := some "annie".toList })], []⟩
        [{ key := some { remoteJid := some "7@s.whatsapp.net".toList },
           pushName := some "AnnaBanana".toList }] true).1
      "7@s.whatsapp.net".toList = some "Ann Smith".toList ∧
    notifyAt (enrichContactsFromMessages
        ⟨[("7@s.whatsapp.net".toList,
          { id := "7@s.whatsapp.net".toList, name := some "Ann Smith".toList,
            notify := some "annie".toList })], []⟩
        [{ key := some { remoteJid := some "7@s.whatsapp.net".toList },
           pushName := some "AnnaBanana".toList }] true).1
      "7@s.whatsapp.net".toList = some "annie".toList :=
  ⟨upsertContact_name_trust.1 _ _ _ _ rfl (by decide),
    upsertContact_name_trust.2.1 _ _ _ _ _ (by decide),
    upsertContact_name_trust.2.2 _ _ _ _ _ (by decide) (by decide)⟩

/-! ### The saved-contact store of `saved-contacts.ts` -/

/-- `saveContact`: upsert a user-managed contact keyed by its canonical
jid.  Returns the stored (or preserved) record, the new store, and whether
`persistSavedContacts` was invoked — the manual-over-import rejection path
returns the existing entry before persisting.  `now` stands for
`new Date().toISOString()`. -/
def saveContact (store : List (Str × Contact)) (name jid : Str)
    (source : ContactSource) (now : Str) :
    Contact × List (Str × Contact) × Bool :=
  match mapGet store jid with
  | some existing =>
    if existing.source = some .manual ∧ source = .imported then (existing, store, false)
    else
      let contact : Contact :=
        { id := jid, name := some name, source := some source
          addedAt := some (existing.addedAt.getD now), updatedAt := some now }
      (contact, mapSet store jid contact, true)
  | none =>
    let contact : Contact :=
      { id := jid, name := some name, source := some source
        addedAt := some now, updatedAt := none }
    (contact, mapSet store jid contact, true)

/-- One entry of a bulk import; the code defends against missing fields
with `?.`/`??`, so they are optional here. -/
structure ImportEntry where
  name : Option Str := none
  phone : Option Str := none
deriving DecidableEq

/-- The aggregate counters returned by `importContacts`. -/
structure ImportStats where
  upserted : Nat
  skipped : Nat
  invalid : Nat
  manualPreserved : Nat
deriving DecidableEq

/-- `normalizePhone`: strip everything but digits. -/
def normalizePhone (phone : Str) : Str :=
  phone.filter fun c => '0' ≤ c && c ≤ '9'

/-- One iteration of the `importContacts` loop. -/
def importStep (now : Str) (acc : List (Str × Contact) × ImportStats)
    (entry : ImportEntry) : List (Str × Contact) × ImportStats :=
  let name := entry.name.map jsTrim
  let digits := normalizePhone (entry.phone.getD [])
  if name = none ∨ name = some [] ∨ digits = [] ∨ digits.length < 7 then
    (acc.1, { acc.2 with invalid := acc.2.invalid + 1 })
  else
    let jid := digits ++ netSuffix
    match mapGet acc.1 jid with
    | some existing =>
      if existing.source = some .manual then
        (acc.1, { acc.2 with manualPreserved := acc.2.manualPreserved + 1,
                             skipped := acc.2.skipped + 1 })
      else if existing.source = some .imported ∧ existing.name = name then
        (acc.1, { acc.2 with skipped := acc.2.skipped + 1 })
      else
        (mapSet acc.1 jid
          { id := jid, name := name, source := some .imported
            addedAt := some (existing.addedAt.getD now), updatedAt := some now },
          { acc.2 with upserted := acc.2.upserted + 1 })
    | none =>
      (mapSet acc.1 jid
        { id := jid, name := name, source := some .imported, addedAt := some now },
        { acc.2 with upserted := acc.2.upserted + 1 })

/-- `importContacts`: bulk-import name/phone pairs, returning the new
store and the aggregate counts. -/
def importContacts (store : List (Str × Contact)) (entries : List ImportEntry)
    (now : Str) : List (Str × Contact) × ImportStats :=
  entries.foldl (importStep now) (store, ⟨0, 0, 0, 0⟩)

lemma importStep_keeps_manual (now : Str) (acc : List (Str × Contact) × ImportStats)
    (entry : ImportEntry) (k : Str) (e : Contact)
    (hk : mapGet acc.1 k = some e) (hsrc : e.source = some .manual) :
    mapGet (importStep now acc entry).1 k = some e := by
  unfold importStep
  dsimp only
  split
  · exact hk
  · rcases hmem : mapGet acc.1 (normalizePhone (entry.phone.getD []) ++ netSuffix)
      with _ | ex
    · dsimp only
      by_cases hkj : k = normalizePhone (entry.phone.getD []) ++ netSuffix
      · rw [← hkj] at hmem
        rw [hk] at hmem
        cases hmem
      · rw [mapGet_mapSet_ne _ _ _ _ hkj]
        exact hk
    · dsimp only
      split
      · exact hk
      · split
        · exact hk
        · next hman _ =>
          by_cases hkj : k = normalizePhone (entry.phone.getD []) ++ netSuffix
          · exfalso
            rw [← hkj] at hmem
            rw [hk] at hmem
            cases hmem
            exact hman hsrc
          · rw [mapGet_mapSet_ne _ _ _ _ hkj]
            exact hk

/-- C5: a saved contact with source `manual` is never overwritten by an
import: `saveContact` with source `import` against a manual entry returns
that entry unchanged, leaves the store unchanged, and does not persist;
`importContacts` never modifies a manual entry; and a single import entry
whose normalized phone maps to a manual entry leaves the store unchanged
while counting `manualPreserved = 1` and `skipped = 1` (no upserts, no
invalids). -/
theorem saveContact_manual_wins :
    (∀ (store : List (Str × Contact)) (name jid now : Str) (e : Contact),
      mapGet store jid = some e → e.source = some .manual →
      saveContact store name jid .imported now = (e, store, false)) ∧
    (∀ (store : List (Str × Contact)) (entries : List ImportEntry) (now k : Str)
      (e : Contact), mapGet store k = some e → e.source = some .manual →
      mapGet (importContacts store entries now).1 k = some e) ∧
    (∀ (store : List (Str × Contact)) (entry : ImportEntry) (now : Str) (e : Contact),
      entry.name.map jsTrim ≠ none → entry.name.map jsTrim ≠ some [] →
      7 ≤ (normalizePhone (entry.phone.getD [])).length →
      mapGet store (normalizePhone (entry.phone.getD []) ++ netSuffix) = some e →
      e.source = some .manual →
      importContacts store [entry] now = (store, ⟨0, 1, 0, 1⟩)) := by
  refine ⟨?_, ?_, ?_⟩
  · intro store name jid now e hmem hsrc
    unfold saveContact
    rw [hmem]
    dsimp only
    rw [if_pos ⟨hsrc, rfl⟩]
  · intro store entries now k e hmem hsrc
    unfold importContacts
    suffices H : ∀ acc : List (Str × Contact) × ImportStats, mapGet acc.1 k = some e →
        mapGet (entries.foldl (importStep now) acc).1 k = some e from H (store, ⟨0, 0, 0, 0⟩) hmem
    induction entries with
    | nil => exact fun acc h => h
    | cons entry rest ih =>
      intro acc h
      rw [List.foldl_cons]
      exact ih _ (importStep_keeps_manual now acc entry k e h hsrc)
  · intro store entry now e hn1 hn2 hd hmem hsrc
    unfold importContacts
    rw [List.foldl_cons, List.foldl_nil]
    unfold importStep
    dsimp only
    rw [if_neg ?_]
    · rw [hmem]
      dsimp only
      rw [if_pos hsrc]
    · rintro (h | h | h | h)
      · exact hn1 h
      · exact hn2 h
      · rw [h] at hd
        simp at hd
      · omega

theorem saveContact_manual_wins_witness :
    saveContact
        [("1234567@s.whatsapp.net".toList,
          { id := "1234567@s.whatsapp.net".toList, name := some "Mom".toList,
            source := some .manual, addedAt := some "t0".toList })]
        "Mother".toList "1234567@s.whatsapp.net".toList .imported "t1".toList =
      ({ id := "1234567@s.whatsapp.net".toList, name := some "Mom".toList,
         source := some .manual, addedAt := some "t0".toList },
        [("1234567@s.whatsapp.net".toList,
          { id := "1234567@s.whatsapp.net".toList, name := some "Mom".toList,
            source := some .manual, addedAt := some "t0".toList })], false) ∧
    mapGet (importContacts
        [("1234567@s.whatsapp.net".toList,
          { id := "1234567@s.whatsapp.net".toList, name := some "Mom".toList,
            source := some .manual, addedAt := some "t0".toList })]
        [{ name := some " Mother ".toList, phone := some "+1 (23) 45-67".toList }]
        "t1".toList).1 "1234567@s.whatsapp.net".toList =
      some { id := "1234567@s.whatsapp.net".toList, name := some "Mom".toList,
             source := some .manual, addedAt := some "t0".toList } ∧
    importContacts
        [("1234567@s.whatsapp.net".toList,
          { id := "1234567@s.whatsapp.net".toList, name := some "Mom".toList,
            source := some .manual, addedAt := some "t0".toList })]
        [{ name := some " Mother ".toList, phone := some "+1 (23) 45-67".toList }]
        "t1".toList =
      ([("1234567@s.whatsapp.net".toList,
          { id := "1234567@s.whatsapp.net".toList, name := some "Mom".toList,
            source := some .manual, addedAt := some "t0".toList })], ⟨0, 1, 0, 1⟩) :=
  ⟨saveContact_manual_wins.1 _ _ _ _ _ (by decide) (by decide),
    saveContact_manual_wins.2.1 _ _ _ _ _ (by decide) (by decide),
    saveContact_manual_wins.2.2 _ _ _
      { id := "1234567@s.whatsapp.net".toList, name := some "Mom".toList,
        source := some .manual, addedAt := some "t0".toList }
      (by decide) (by decide) (by decide) (by decide) (by decide)⟩

/-! ### Disk persistence of the contact directory (whatsapp.ts:
`persistContacts` / `loadCachedContacts`).  The on-disk JSON is either the
modern `{contacts, lidMap}` payload or the legacy flat jid→Contact map
(`raw.contacts ?? raw` with `raw.lidMap ?? {}`). -/

inductive ContactsFile where
  | modern (contacts : List (Str × Contact)) (lidMap : List (Str × Str))
  | legacy (contacts : List (Str × Contact))
deriving DecidableEq

def persistContacts (st : DirState) (disk : Option ContactsFile) :
    Option ContactsFile :=
  if st.store = [] then disk
  else some (.modern st.store st.lidMap)

def loadCachedContacts (disk : Option ContactsFile) (st : DirState) : DirState :=
  match disk with
  | none => st
  | some (.modern contacts lidMap) =>
      { store := contacts.foldl (fun m kv => mapSet m kv.1 kv.2) st.store,
        lidMap := lidMap.foldl (fun m kv => mapSet m kv.1 kv.2) st.lidMap }
  | some (.legacy contacts) =>
      { store := contacts.foldl (fun m kv => mapSet m kv.1 kv.2) st.store,
        lidMap := st.lidMap }

lemma mapSet_not_mem {β : Type} (m : List (Str × β)) (k : Str) (v : β)
    (h : k ∉ m.map Prod.fst) : mapSet m k v = m ++ [(k, v)] := by
  induction m with
  | nil => rfl
  | cons kv rest ih =>
    obtain ⟨k0, v0⟩ := kv
    simp only [List.map_cons, List.mem_cons, not_or] at h
    unfold mapSet
    rw [if_neg (fun hE => h.1 hE.symm), ih h.2]
    rfl

lemma foldl_mapSet_disjoint {β : Type} (l : List (Str × β)) :
    ∀ acc : List (Str × β), (l.map Prod.fst).Nodup →
      (∀ k, k ∈ l.map Prod.fst → k ∉ acc.map Prod.fst) →
      l.foldl (fun m kv => mapSet m kv.1 kv.2) acc = acc ++ l := by
  induction l with
  | nil => intro acc _ _; simp
  | cons kv rest ih =>
    intro acc hnd hdisj
    simp only [List.map_cons, List.nodup_cons] at hnd
    rw [List.foldl_cons, mapSet_not_mem acc kv.1 kv.2
      (hdisj kv.1 (List.mem_map_of_mem Prod.fst (List.mem_cons_self kv rest)))]
    rw [ih (acc ++ [(kv.1, kv.2)]) hnd.2 ?_]
    · simp
    · intro k hk
      simp only [List.map_append, List.mem_append, List.map_cons, not_or]
      refine ⟨hdisj k (by simp [hk]), ?_⟩
      simp only [List.map_cons, List.map_nil, List.mem_singleton]
      intro hE
      rw [hE] at hk
      exact hnd.1 hk

lemma foldl_mapSet_nil {β : Type} (l : List (Str × β))
    (hnd : (l.map Prod.fst).Nodup) :
    l.foldl (fun m kv => mapSet m kv.1 kv.2) [] = l := by
  rw [foldl_mapSet_disjoint l [] hnd (fun k _ hk => List.not_mem_nil k hk)]
  simp

/-- Counterexample to C7's unconditional round trip: a directory with an
empty contact table but a nonempty linked-id map is not persisted at all
(`persistContacts` early-returns when the store is empty), so reloading
yields a directory that lost the lid mapping. -/
theorem contacts_round_trip_cex :
    persistContacts
        { store := [], lidMap := [("5@lid".toList, "5@s.whatsapp.net".toList)] }
        none = none ∧
    loadCachedContacts
        (persistContacts
          { store := [],
            lidMap := [("5@lid".toList, "5@s.whatsapp.net".toList)] } none)
        { store := [], lidMap := [] } ≠
      { store := [], lidMap := [("5@lid".toList, "5@s.whatsapp.net".toList)] } := by
  constructor
  · rfl
  · decide

/-- C7 (amended): for every directory whose contact table is nonempty and
whose tables have duplicate-free keys, persisting (over any prior disk
content) and reloading into a fresh in-memory store yields the directory
back exactly; moreover the loader treats the legacy flat format exactly
like the modern format with an empty lidMap, for every target store. -/
theorem contacts_round_trip (st : DirState)
    (hne : st.store ≠ [])
    (hndS : (st.store.map Prod.fst).Nodup)
    (hndL : (st.lidMap.map Prod.fst).Nodup) :
    (∀ disk, loadCachedContacts (persistContacts st disk)
        { store := [], lidMap := [] } = st) ∧
    (∀ contacts st', loadCachedContacts (some (.legacy contacts)) st' =
        loadCachedContacts (some (.modern contacts [])) st') := by
  constructor
  · intro disk
    unfold persistContacts
    rw [if_neg hne]
    unfold loadCachedContacts
    dsimp only
    rw [foldl_mapSet_nil st.store hndS, foldl_mapSet_nil st.lidMap hndL]
  · intro contacts st'
    unfold loadCachedContacts
    dsimp only
    rw [List.foldl_nil]

theorem contacts_round_trip_witness :
    loadCachedContacts
        (persistContacts
          { store := [("7@s.whatsapp.net".toList,
              { id := "7@s.whatsapp.net".toList, name := some "Bo".toList })],
            lidMap := [("9@lid".toList, "7@s.whatsapp.net".toList)] }
          (some (.legacy []))) { store := [], lidMap := [] } =
      { store := [("7@s.whatsapp.net".toList,
          { id := "7@s.whatsapp.net".toList, name := some "Bo".toList })],
        lidMap := [("9@lid".toList, "7@s.whatsapp.net".toList)] } :=
  (contacts_round_trip _ (by decide) (by decide) (by decide)).1 (some (.legacy []))

/-! ### Reconnect backoff (whatsapp.ts `connection.update` close handler).
The retry state is modeled per session: `sessionActive` is whether the uid is
still in `sessions` (after `sessions.delete(uid)` the socket is gone, so no
further `connection.update` events can fire for it — modeled as the inactive
no-op), `attempts` is `retryState.get(uid)?.attempts ?? 0`.  A step returns
the new state plus the delay of the reconnect scheduled by `setTimeout`, if
any. -/

def MAX_RECONNECT_ATTEMPTS : Nat := 5

def BASE_BACKOFF_MS : Nat := 2000

def MAX_BACKOFF_MS : Nat := 60000

def NON_RETRIABLE_CODES : List Nat := [401, 405]

def nonRetriable : Option Nat → Bool
  | some c => NON_RETRIABLE_CODES.contains c
  | none => false

structure ConnState where
  sessionActive : Bool
  attempts : Nat
deriving DecidableEq

inductive ConnEvent where
  | connOpen
  | connClose (statusCode : Option Nat)
deriving DecidableEq

def backoffDelay (n : Nat) : Nat :=
  min (BASE_BACKOFF_MS * 2 ^ (n - 1)) MAX_BACKOFF_MS

def connStep (st : ConnState) (ev : ConnEvent) : ConnState × Option Nat :=
  if st.sessionActive = false then (st, none)
  else
    match ev with
    | .connOpen => ({ st with attempts := 0 }, none)
    | .connClose code =>
      if nonRetriable code then ({ sessionActive := false, attempts := 0 }, none)
      else
        let attempts := st.attempts + 1
        if MAX_RECONNECT_ATTEMPTS < attempts then
          ({ sessionActive := false, attempts := 0 }, none)
        else
          ({ st with attempts := attempts }, some (backoffDelay attempts))

def runTrace (st : ConnState) : List ConnEvent → ConnState × List Nat
  | [] => (st, [])
  | ev :: rest =>
    let s := connStep st ev
    let r := runTrace s.1 rest
    (r.1, s.2.toList ++ r.2)

lemma runTrace_inactive (evs : List ConnEvent) (st : ConnState)
    (h : st.sessionActive = false) : runTrace st evs = (st, []) := by
  induction evs with
  | nil => rfl
  | cons ev rest ih =>
    unfold runTrace connStep
    rw [if_pos h]
    dsimp only
    rw [ih]
    rfl

lemma runTrace_fst_append (l1 l2 : List ConnEvent) (st : ConnState) :
    (runTrace st (l1 ++ l2)).1 = (runTrace (runTrace st l1).1 l2).1 := by
  induction l1 generalizing st with
  | nil => rfl
  | cons ev rest ih =>
    show (runTrace (connStep st ev).1 (rest ++ l2)).1 = _
    rw [ih]
    rfl

lemma runTrace_snd_append (l1 l2 : List ConnEvent) (st : ConnState) :
    (runTrace st (l1 ++ l2)).2 =
      (runTrace st l1).2 ++ (runTrace (runTrace st l1).1 l2).2 := by
  induction l1 generalizing st with
  | nil => rfl
  | cons ev rest ih =>
    show (connStep st ev).2.toList ++ (runTrace (connStep st ev).1 (rest ++ l2)).2 = _
    rw [ih]
    exact (List.append_assoc _ _ _).symm

/-- C6: reconnect backoff policy.  (a) an active session hit by a retriable
close with at most four prior consecutive failures increments the counter
and schedules a reconnect after min(2000·2^(n−1), 60000) ms where n is the
new count; (b) those delays are strictly increasing through the fifth
attempt and never exceed the 60 s cap; (c) the sixth consecutive retriable
close deletes the session and schedules nothing, and no later event ever
schedules a reconnect; (d) a successful open resets the counter to zero;
(e) a close with status 401 or 405 (both non-retriable) deletes the session
immediately with zero reconnects scheduled; (f) a run of six or more
consecutive retriable closes from a fresh session produces exactly the
delays [2000, 4000, 8000, 16000, 32000] and ends with the session gone. -/
theorem reconnect_backoff_policy :
    (∀ (st : ConnState) (code : Option Nat), st.sessionActive = true →
      nonRetriable code = false → st.attempts + 1 ≤ MAX_RECONNECT_ATTEMPTS →
      connStep st (.connClose code) =
        ({ st with attempts := st.attempts + 1 },
          some (backoffDelay (st.attempts + 1)))) ∧
    (∀ n, 1 ≤ n → n ≤ 4 → backoffDelay n < backoffDelay (n + 1)) ∧
    (∀ n, backoffDelay n ≤ MAX_BACKOFF_MS) ∧
    (∀ (st : ConnState) (code : Option Nat), st.sessionActive = true →
      nonRetriable code = false → st.attempts = MAX_RECONNECT_ATTEMPTS →
      connStep st (.connClose code) = (⟨false, 0⟩, none)) ∧
    (∀ evs, runTrace ⟨false, 0⟩ evs = (⟨false, 0⟩, [])) ∧
    (∀ st : ConnState, st.sessionActive = true →
      connStep st .connOpen = ({ st with attempts := 0 }, none)) ∧
    (nonRetriable (some 401) = true ∧ nonRetriable (some 405) = true ∧
      ∀ st : ConnState, st.sessionActive = true → ∀ code, nonRetriable code = true →
        connStep st (.connClose code) = (⟨false, 0⟩, none)) ∧
    (∀ k, 6 ≤ k →
      runTrace ⟨true, 0⟩ (List.replicate k (.connClose (some 428))) =
        (⟨false, 0⟩, [2000, 4000, 8000, 16000, 32000])) := by
  have hstep : ∀ (st : ConnState) (code : Option Nat), st.sessionActive = true →
      nonRetriable code = false → st.attempts + 1 ≤ MAX_RECONNECT_ATTEMPTS →
      connStep st (.connClose code) =
        ({ st with attempts := st.attempts + 1 },
          some (backoffDelay (st.attempts + 1))) := by
    intro st code hact hcode hle
    unfold connStep
    rw [if_neg (by rw [hact]; exact fun h => Bool.noConfusion h)]
    dsimp only
    rw [if_neg (by rw [hcode]; exact fun h => Bool.noConfusion h),
      if_neg (Nat.not_lt.mpr hle)]
  have hgiveup : ∀ (st : ConnState) (code : Option Nat), st.sessionActive = true →
      nonRetriable code = false → st.attempts = MAX_RECONNECT_ATTEMPTS →
      connStep st (.connClose code) = (⟨false, 0⟩, none) := by
    intro st code hact hcode heq
    unfold connStep
    rw [if_neg (by rw [hact]; exact fun h => Bool.noConfusion h)]
    dsimp only
    rw [if_neg (by rw [hcode]; exact fun h => Bool.noConfusion h),
      if_pos (by rw [heq]; exact Nat.lt_succ_self _)]
  refine ⟨hstep, ?_, ?_, hgiveup, ?_, ?_, ?_, ?_⟩
  · intro n h1 h4
    interval_cases n <;> decide
  · intro n
    exact Nat.min_le_right _ _
  · intro evs
    exact runTrace_inactive evs _ rfl
  · intro st hact
    unfold connStep
    rw [if_neg (by rw [hact]; exact fun h => Bool.noConfusion h)]
  · exact ⟨rfl, rfl, fun st hact code hcode => by
      unfold connStep
      rw [if_neg (by rw [hact]; exact fun h => Bool.noConfusion h)]
      dsimp only
      rw [if_pos hcode]⟩
  · intro k hk
    obtain ⟨m, rfl⟩ := Nat.exists_eq_add_of_le hk
    rw [List.replicate_add]
    have h6 : runTrace ⟨true, 0⟩
        (List.replicate 6 (ConnEvent.connClose (some 428))) =
        (⟨false, 0⟩, [2000, 4000, 8000, 16000, 32000]) := by decide
    have hfst := runTrace_fst_append
      (List.replicate 6 (ConnEvent.connClose (some 428)))
      (List.replicate m (ConnEvent.connClose (some 428))) ⟨true, 0⟩
    have hsnd := runTrace_snd_append
      (List.replicate 6 (ConnEvent.connClose (some 428)))
      (List.replicate m (ConnEvent.connClose (some 428))) ⟨true, 0⟩
    rw [h6] at hfst hsnd
    dsimp only at hfst hsnd
    rw [runTrace_inactive (List.replicate m (ConnEvent.connClose (some 428)))
      ⟨false, 0⟩ rfl] at hfst hsnd
    exact Prod.ext hfst (hsnd.trans (List.append_nil _))

theorem reconnect_backoff_policy_witness :
    connStep ⟨true, 2⟩ (.connClose (some 428)) = (⟨true, 3⟩, some 8000) ∧
    backoffDelay 3 < backoffDelay 4 ∧
    backoffDelay 7 ≤ MAX_BACKOFF_MS ∧
    connStep ⟨true, 5⟩ (.connClose (some 428)) = (⟨false, 0⟩, none) ∧
    runTrace ⟨false, 0⟩ [.connClose (some 428)] = (⟨false, 0⟩, []) ∧
    connStep ⟨true, 4⟩ .connOpen = (⟨true, 0⟩, none) ∧
    connStep ⟨true, 1⟩ (.connClose (some 401)) = (⟨false, 0⟩, none) ∧
    runTrace ⟨true, 0⟩ (List.replicate 7 (.connClose (some 428))) =
      (⟨false, 0⟩, [2000, 4000, 8000, 16000, 32000]) :=
  ⟨(reconnect_backoff_policy.1 ⟨true, 2⟩ (some 428) rfl (by decide)
      (by decide)).trans (by decide),
    reconnect_backoff_policy.2.1 3 (by decide) (by decide),
    reconnect_backoff_policy.2.2.1 7,
    reconnect_backoff_policy.2.2.2.1 ⟨true, 5⟩ (some 428) rfl (by decide) rfl,
    reconnect_backoff_policy.2.2.2.2.1 [.connClose (some 428)],
    (reconnect_backoff_policy.2.2.2.2.2.1 ⟨true, 4⟩ rfl).trans (by decide),
    reconnect_backoff_policy.2.2.2.2.2.2.1.2.2 ⟨true, 1⟩ rfl (some 401) (by decide),
    reconnect_backoff_policy.2.2.2.2.2.2.2 7 (by decide)⟩

end OmiWa
